import Mathlib

/-!
# Verification of the `PriorityQueue<T>` core of `ts-utils`

Shallow embedding of `src/functions/pluck.ts`: a generic binary min-heap
priority queue with deterministic tie-breaking by a monotonically increasing
insertion sequence id, and a replaceable comparator.

Modelling conventions:
* The heap storage (`this.heap : Entry<T>[]`) is a `List (Entry α)`, indexed
  exactly like the source array: parent of `i` is `(i-1)/2`, children are
  `2*i+1` and `2*i+2` (`Math.floor` on non-negative operands is `Nat` division).
* A comparator `(a: T, b: T) => number` that never throws is a total function
  `α → α → Int`.  The spec constrains comparators to define a total preorder;
  `LawfulCmp` states exactly that at the comparator level.
* JavaScript exceptions thrown by a comparator are modelled in a second,
  fallible embedding (`siftUpF`, `enqueueF`, `defaultComparator` below) where a
  comparator returns `Option Int` (`none` = throw) and operations return
  `Except`, whose `.error` payload is the storage state at the moment of the
  throw (JS mutations performed before the throw persist).
* Element accesses in the source are always in bounds; out-of-range `getE`
  returns a junk entry built from `Inhabited α`, which no reachable execution
  ever produces.
-/

set_option maxHeartbeats 1000000

/-- One stored element together with its insertion sequence id
(`type Entry<T> = { value: T; id: number }`). -/
structure Entry (α : Type) where
  value : α
  id : Nat
deriving Repr, DecidableEq

instance [Inhabited α] : Inhabited (Entry α) := ⟨⟨default, 0⟩⟩

/-- A comparator `(T, T) -> number`; the spec (§3) requires it to define a
total preorder over `T`.  `swap` says the comparison signs are opposite on
swapped arguments, `trans` that the induced `cmp a b ≤ 0` relation is
transitive.  Together these make `fun a b => cmp a b ≤ 0` a total preorder. -/
structure LawfulCmp {α : Type} (cmp : α → α → Int) : Prop where
  swap : ∀ a b, cmp a b < 0 ↔ 0 < cmp b a
  trans : ∀ a b c, cmp a b ≤ 0 → cmp b c ≤ 0 → cmp a c ≤ 0

namespace LawfulCmp

variable {α : Type} {cmp : α → α → Int}

theorem zero_iff (h : LawfulCmp cmp) (a b : α) : cmp a b = 0 ↔ cmp b a = 0 := by
  have h1 := h.swap a b
  have h2 := h.swap b a
  omega

theorem refl (h : LawfulCmp cmp) (a : α) : cmp a a = 0 := by
  have h1 := h.swap a a
  omega

theorem le_iff (h : LawfulCmp cmp) (a b : α) : cmp a b ≤ 0 ↔ 0 ≤ cmp b a := by
  have h1 := h.swap a b
  have h2 := h.swap b a
  omega

theorem total (h : LawfulCmp cmp) (a b : α) : cmp a b ≤ 0 ∨ cmp b a ≤ 0 := by
  have h1 := h.swap a b
  omega

end LawfulCmp

/-- Index access `heap[i]` (all source accesses are in bounds). -/
def getE {α : Type} [Inhabited α] (l : List (Entry α)) (i : Nat) : Entry α :=
  l.getD i default

/-- `private swap(a, b)`: exchange the entries at indices `a` and `b`. -/
def swapE {α : Type} [Inhabited α] (l : List (Entry α)) (a b : Nat) : List (Entry α) :=
  (l.set a (getE l b)).set b (getE l a)

section GetLemmas

variable {α : Type} [Inhabited α]

theorem getE_eq_getElem (l : List (Entry α)) (i : Nat) (h : i < l.length) :
    getE l i = l[i] := by
  simp [getE, List.getD_eq_getElem?_getD, List.getElem?_eq_getElem h]

theorem getE_cons_succ (x : Entry α) (l : List (Entry α)) (i : Nat) :
    getE (x :: l) (i + 1) = getE l i := by
  simp [getE]

theorem getE_cons_zero (x : Entry α) (l : List (Entry α)) :
    getE (x :: l) 0 = x := rfl

theorem getE_append_left (l l' : List (Entry α)) (i : Nat) (h : i < l.length) :
    getE (l ++ l') i = getE l i := by
  simp [getE, List.getD_eq_getElem?_getD, List.getElem?_append_left h]

theorem getE_concat_self (l : List (Entry α)) (x : Entry α) :
    getE (l ++ [x]) l.length = x := by
  simp [getE, List.getD_eq_getElem?_getD]

theorem getE_set_self (l : List (Entry α)) (i : Nat) (x : Entry α) (h : i < l.length) :
    getE (l.set i x) i = x := by
  simp [getE, List.getD_eq_getElem?_getD, List.getElem?_set_self', h]

theorem getE_set_ne (l : List (Entry α)) (i j : Nat) (x : Entry α) (h : j ≠ i) :
    getE (l.set i x) j = getE l j := by
  simp [getE, List.getD_eq_getElem?_getD, List.getElem?_set_ne (fun he => h he.symm)]

@[simp] theorem swapE_length (l : List (Entry α)) (a b : Nat) :
    (swapE l a b).length = l.length := by
  simp [swapE]

theorem getE_swapE_left (l : List (Entry α)) (a b : Nat) (ha : a < l.length) (hab : a ≠ b) :
    getE (swapE l a b) a = getE l b := by
  rw [swapE, getE_set_ne _ _ _ _ hab, getE_set_self _ _ _ ha]

theorem getE_swapE_right (l : List (Entry α)) (a b : Nat) (hb : b < l.length) :
    getE (swapE l a b) b = getE l a := by
  rw [swapE, getE_set_self]
  simpa using hb

theorem getE_swapE_ne (l : List (Entry α)) (a b j : Nat) (hja : j ≠ a) (hjb : j ≠ b) :
    getE (swapE l a b) j = getE l j := by
  rw [swapE, getE_set_ne _ _ _ _ hjb, getE_set_ne _ _ _ _ hja]

theorem getE_dropLast (l : List (Entry α)) (i : Nat) (h : i + 1 < l.length) :
    getE l.dropLast i = getE l i := by
  rw [getE_eq_getElem _ _ (by simp; omega), getE_eq_getElem _ _ (by omega)]
  exact List.getElem_dropLast l i _

theorem getE_mem (l : List (Entry α)) (i : Nat) (h : i < l.length) :
    getE l i ∈ l := by
  rw [getE_eq_getElem _ _ h]
  exact List.getElem_mem h

/-- Auxiliary step for the swap permutation: pulling the `k`-th element of a
list to the front while writing `x` into its slot is a permutation of
putting `x` in front. -/
theorem cons_set_perm (x : Entry α) :
    ∀ (t : List (Entry α)) (k : Nat), k < t.length →
      List.Perm (getE t k :: t.set k x) (x :: t) := by
  intro t
  induction t with
  | nil => intro k hk; simp at hk
  | cons y s ih =>
    intro k hk
    cases k with
    | zero =>
      simpa [getE_cons_zero] using List.Perm.swap x y s
    | succ k =>
      have hk' : k < s.length := by simpa using hk
      have e1 : getE (y :: s) (k + 1) :: (y :: s).set (k + 1) x
          = getE s k :: y :: s.set k x := by simp [getE_cons_succ]
      rw [e1]
      exact ((List.Perm.swap y (getE s k) (s.set k x)).trans
        (List.Perm.cons y (ih k hk'))).trans (List.Perm.swap x y s)

theorem swapE_perm_of_lt :
    ∀ (l : List (Entry α)) (a b : Nat), a < b → b < l.length →
      List.Perm (swapE l a b) l := by
  intro l
  induction l with
  | nil => intro a b _ hb; simp at hb
  | cons x t ih =>
    intro a b hab hb
    cases a with
    | zero =>
      obtain ⟨k, rfl⟩ : ∃ k, b = k + 1 := ⟨b - 1, by omega⟩
      have hk : k < t.length := by simpa using hb
      have : swapE (x :: t) 0 (k + 1) = getE t k :: t.set k x := by
        simp [swapE, getE_cons_succ, getE_cons_zero, List.set]
      rw [this]
      exact cons_set_perm x t k hk
    | succ a =>
      obtain ⟨k, rfl⟩ : ∃ k, b = k + 1 := ⟨b - 1, by omega⟩
      have : swapE (x :: t) (a + 1) (k + 1) = x :: swapE t a k := by
        simp [swapE, getE_cons_succ, List.set]
      rw [this]
      exact List.Perm.cons x (ih a k (by omega) (by simpa using hb))

theorem swapE_comm (l : List (Entry α)) (a b : Nat) (hab : a ≠ b) :
    swapE l a b = swapE l b a := by
  rw [swapE, swapE, List.set_comm _ _ _ hab]

theorem set_getE_self : ∀ (l : List (Entry α)) (a : Nat), a < l.length →
    l.set a (getE l a) = l := by
  intro l
  induction l with
  | nil => intro a ha; simp at ha
  | cons x t ih =>
    intro a ha
    cases a with
    | zero => rfl
    | succ a =>
      have := ih a (by simpa using ha)
      simp only [List.set, getE_cons_succ]
      rw [this]

theorem swapE_perm (l : List (Entry α)) (a b : Nat)
    (ha : a < l.length) (hb : b < l.length) : List.Perm (swapE l a b) l := by
  rcases Nat.lt_trichotomy a b with h | h | h
  · exact swapE_perm_of_lt l a b h hb
  · subst h
    rw [swapE, List.set_set, set_getE_self l a ha]
  · rw [swapE_comm _ _ _ (by omega)]
    exact swapE_perm_of_lt l b a h ha

end GetLemmas

/-! ## Entry comparison (`private compareEntries`)

`const c = this.comparator(a.value, b.value); return c !== 0 ? c : a.id - b.id;`
-/

/-- `compareEntries(a, b)`: the active ordering on entries — comparator result
on the values, then insertion id ascending on a comparator result of zero. -/
def compareEntries {α : Type} (cmp : α → α → Int) (a b : Entry α) : Int :=
  let c := cmp a.value b.value
  if c ≠ 0 then c else (a.id : Int) - (b.id : Int)

section EntryOrder

variable {α : Type} {cmp : α → α → Int}

theorem compareEntries_refl (h : LawfulCmp cmp) (a : Entry α) :
    compareEntries cmp a a = 0 := by
  simp [compareEntries, h.refl a.value]

theorem compareEntries_swap (h : LawfulCmp cmp) (a b : Entry α) :
    compareEntries cmp a b < 0 ↔ 0 < compareEntries cmp b a := by
  have h1 := h.swap a.value b.value
  have h2 := h.swap b.value a.value
  have h3 := h.zero_iff a.value b.value
  simp only [compareEntries]
  split_ifs <;> omega

theorem compareEntries_le_iff (h : LawfulCmp cmp) (a b : Entry α) :
    compareEntries cmp a b ≤ 0 ↔ 0 ≤ compareEntries cmp b a := by
  have h1 := compareEntries_swap h a b
  have h2 := compareEntries_swap h b a
  omega

theorem compareEntries_eq_zero (h : LawfulCmp cmp) {a b : Entry α}
    (hab : compareEntries cmp a b = 0) : cmp a.value b.value = 0 ∧ a.id = b.id := by
  unfold compareEntries at hab
  by_cases hz : cmp a.value b.value = 0
  · simp [hz] at hab
    exact ⟨hz, by omega⟩
  · simp [hz] at hab

theorem compareEntries_trans (h : LawfulCmp cmp) {a b c : Entry α}
    (hab : compareEntries cmp a b ≤ 0) (hbc : compareEntries cmp b c ≤ 0) :
    compareEntries cmp a c ≤ 0 := by
  have hvab : cmp a.value b.value ≤ 0 := by
    unfold compareEntries at hab
    by_cases hz : cmp a.value b.value = 0 <;> simp [hz] at hab <;> omega
  have hvbc : cmp b.value c.value ≤ 0 := by
    unfold compareEntries at hbc
    by_cases hz : cmp b.value c.value = 0 <;> simp [hz] at hbc <;> omega
  have hvac : cmp a.value c.value ≤ 0 := h.trans _ _ _ hvab hvbc
  unfold compareEntries
  by_cases hz : cmp a.value c.value = 0
  · -- the value comparisons collapse to zero throughout; fall back to ids
    simp [hz]
    have hca : cmp c.value a.value ≤ 0 := by
      have := (h.zero_iff a.value c.value).mp hz
      omega
    have hvba : cmp b.value a.value ≤ 0 := h.trans _ _ _ hvbc hca
    have hzab : cmp a.value b.value = 0 := by
      have := h.swap a.value b.value
      have := h.swap b.value a.value
      omega
    have hvcb : cmp c.value b.value ≤ 0 := h.trans _ _ _ hca hvab
    have hzbc : cmp b.value c.value = 0 := by
      have := h.swap b.value c.value
      have := h.swap c.value b.value
      omega
    have hid1 : (a.id : Int) ≤ b.id := by
      unfold compareEntries at hab
      simp [hzab] at hab
      omega
    have hid2 : (b.id : Int) ≤ c.id := by
      unfold compareEntries at hbc
      simp [hzbc] at hbc
      omega
    omega
  · simp [hz]
    omega

end EntryOrder

/-! ## Index arithmetic and sifting -/

/-- `private getParent(idx) { return Math.floor((idx - 1) / 2); }`
(only ever invoked at a positive index, where `Nat` subtraction agrees). -/
def getParent (idx : Nat) : Nat := (idx - 1) / 2

/-- `private getLeft(idx) { return 2 * idx + 1; }` -/
def getLeft (idx : Nat) : Nat := 2 * idx + 1

/-- `private getRight(idx) { return 2 * idx + 2; }` -/
def getRight (idx : Nat) : Nat := 2 * idx + 2

section Sift

variable {α : Type} [Inhabited α]

/-- `private siftUp(idx)`: repeatedly swap the entry at `i` with its parent
while it compares strictly before the parent. -/
def siftUp (cmp : α → α → Int) (l : List (Entry α)) (i : Nat) : List (Entry α) :=
  if h : 0 < i then
    if compareEntries cmp (getE l i) (getE l (getParent i)) ≥ 0 then l
    else siftUp cmp (swapE l i (getParent i)) (getParent i)
  else l
termination_by i
decreasing_by
  have : (i - 1) / 2 ≤ i - 1 := Nat.div_le_self _ _
  simp only [getParent]
  omega

/-- The `smallest` index computed by one `siftDown` iteration: `i`, then the
left child if it exists and compares strictly before, then the right child if
it exists and compares strictly before the current smallest. -/
def smallestIdx (cmp : α → α → Int) (l : List (Entry α)) (i : Nat) : Nat :=
  let n := l.length
  let s1 := if getLeft i < n ∧ compareEntries cmp (getE l (getLeft i)) (getE l i) < 0
    then getLeft i else i
  if getRight i < n ∧ compareEntries cmp (getE l (getRight i)) (getE l s1) < 0
    then getRight i else s1

theorem smallestIdx_ne (cmp : α → α → Int) (l : List (Entry α)) (i : Nat)
    (h : smallestIdx cmp l i ≠ i) :
    i < smallestIdx cmp l i ∧ smallestIdx cmp l i < l.length := by
  unfold smallestIdx at h ⊢
  simp only [getLeft, getRight]
  split <;> split <;> simp_all [getLeft, getRight] <;> omega

/-- `private siftDown(idx)`: repeatedly swap the entry at `i` with its
smaller-ordered child while one compares strictly before it. -/
def siftDown (cmp : α → α → Int) (l : List (Entry α)) (i : Nat) : List (Entry α) :=
  if h : smallestIdx cmp l i = i then l
  else siftDown cmp (swapE l i (smallestIdx cmp l i)) (smallestIdx cmp l i)
termination_by l.length - i
decreasing_by
  have h2 := smallestIdx_ne cmp l i h
  simp only [swapE_length]
  omega

theorem siftUp_perm (cmp : α → α → Int) (l : List (Entry α)) (i : Nat)
    (hi : i < l.length) : List.Perm (siftUp cmp l i) l := by
  rw [siftUp]
  split
  · split
    · exact List.Perm.refl l
    · have hp : getParent i < l.length := by
        have : (i - 1) / 2 ≤ i - 1 := Nat.div_le_self _ _
        simp only [getParent]; omega
      exact (siftUp_perm cmp (swapE l i (getParent i)) (getParent i)
        (by simpa using hp)).trans (swapE_perm l i (getParent i) hi hp)
  · exact List.Perm.refl l
termination_by i
decreasing_by
  have : (i - 1) / 2 ≤ i - 1 := Nat.div_le_self _ _
  simp only [getParent]
  omega

theorem siftDown_perm (cmp : α → α → Int) (l : List (Entry α)) (i : Nat) :
    List.Perm (siftDown cmp l i) l := by
  rw [siftDown]
  split
  · exact List.Perm.refl l
  · rename_i h
    have h2 := smallestIdx_ne cmp l i h
    exact (siftDown_perm cmp (swapE l i (smallestIdx cmp l i))
      (smallestIdx cmp l i)).trans (swapE_perm l i _ (by omega) h2.2)
termination_by l.length - i
decreasing_by
  all_goals
    have h2 := smallestIdx_ne cmp l i (by assumption)
    simp only [swapE_length]
    omega

@[simp] theorem siftUp_length (cmp : α → α → Int) (l : List (Entry α)) (i : Nat)
    (hi : i < l.length) : (siftUp cmp l i).length = l.length :=
  (siftUp_perm cmp l i hi).length_eq

@[simp] theorem siftDown_length (cmp : α → α → Int) (l : List (Entry α)) (i : Nat) :
    (siftDown cmp l i).length = l.length :=
  (siftDown_perm cmp l i).length_eq

/-- The reverse-level-order sift-down pass
`for (let i = idx; ; i--) this.siftDown(i)` running from `idx` down to `0`. -/
def heapifyFrom (cmp : α → α → Int) (l : List (Entry α)) : Nat → List (Entry α)
  | 0 => siftDown cmp l 0
  | i + 1 => heapifyFrom cmp (siftDown cmp l (i + 1)) i

/-- `for (let i = Math.floor(n / 2) - 1; i >= 0; i--) this.siftDown(i)`:
the linear-time heap-construction pass shared by `toSortedArray` and
`setComparator`. -/
def heapify (cmp : α → α → Int) (l : List (Entry α)) : List (Entry α) :=
  if l.length / 2 = 0 then l else heapifyFrom cmp l (l.length / 2 - 1)

theorem heapifyFrom_perm (cmp : α → α → Int) :
    ∀ (i : Nat) (l : List (Entry α)), List.Perm (heapifyFrom cmp l i) l := by
  intro i
  induction i with
  | zero => intro l; exact siftDown_perm cmp l 0
  | succ i ih =>
    intro l
    exact (ih (siftDown cmp l (i + 1))).trans (siftDown_perm cmp l (i + 1))

theorem heapify_perm (cmp : α → α → Int) (l : List (Entry α)) :
    List.Perm (heapify cmp l) l := by
  unfold heapify
  split
  · exact List.Perm.refl l
  · exact heapifyFrom_perm cmp _ l

@[simp] theorem heapify_length (cmp : α → α → Int) (l : List (Entry α)) :
    (heapify cmp l).length = l.length :=
  (heapify_perm cmp l).length_eq

end Sift

/-! ## The queue itself (`export class PriorityQueue<T>`) -/

/-- The queue state: `private heap`, `private comparator`, `private seq`. -/
structure PriorityQueue (α : Type) where
  heap : List (Entry α)
  comparator : α → α → Int
  seq : Nat

namespace PriorityQueue

variable {α : Type} [Inhabited α]

/-- `new PriorityQueue(comparator)` with no initial values: empty storage and
sequence counter `0`. -/
def mkQueue (cmp : α → α → Int) : PriorityQueue α :=
  { heap := [], comparator := cmp, seq := 0 }

/-- `size()` -/
def size (q : PriorityQueue α) : Nat := q.heap.length

/-- `isEmpty()` -/
def isEmpty (q : PriorityQueue α) : Bool := q.heap.length == 0

/-- `peek()`: `this.heap[0]?.value ?? null` (`none` is the absent signal). -/
def peek (q : PriorityQueue α) : Option α := (q.heap[0]?).map Entry.value

/-- `enqueue(value)`: append `{ value, id: seq++ }` and sift it up from the
last index. -/
def enqueue (q : PriorityQueue α) (value : α) : PriorityQueue α :=
  let entry : Entry α := { value := value, id := q.seq }
  let heap' := q.heap ++ [entry]
  { heap := siftUp q.comparator heap' (heap'.length - 1),
    comparator := q.comparator,
    seq := q.seq + 1 }

/-- The storage left behind by `dequeue` on a non-empty heap: remove the last
entry; if storage remains, overwrite the root with it and sift down from 0. -/
def popRoot (cmp : α → α → Int) (l : List (Entry α)) : List (Entry α) :=
  if l.dropLast.isEmpty then l.dropLast
  else siftDown cmp (l.dropLast.set 0 (getE l (l.length - 1))) 0

/-- `dequeue()`: absent on an empty queue; otherwise return the root value and
restore the invariant with `popRoot`.  The result pairs the returned value
with the state of `this` after the call. -/
def dequeue (q : PriorityQueue α) : Option α × PriorityQueue α :=
  if q.isEmpty then (none, q)
  else ((some (getE q.heap 0).value),
    { heap := popRoot q.comparator q.heap, comparator := q.comparator, seq := q.seq })

/-- `clear()`: `this.heap.length = 0; this.seq = 0;` -/
def clear (q : PriorityQueue α) : PriorityQueue α :=
  { heap := [], comparator := q.comparator, seq := 0 }

/-- `toArray()`: the stored values in heap (storage) order. -/
def toArray (q : PriorityQueue α) : List α := q.heap.map Entry.value

/-- The `while (!copy.isEmpty()) out.push(copy.dequeue()!)` drain loop. -/
def drainLoop (q : PriorityQueue α) : List α :=
  if h : q.heap.length = 0 then []
  else (getE q.heap 0).value :: drainLoop
    { heap := popRoot q.comparator q.heap, comparator := q.comparator, seq := q.seq }
termination_by q.heap.length
decreasing_by
  have hd : q.heap.dropLast.length = q.heap.length - 1 := by simp
  simp only [popRoot]
  split
  · rename_i hres
    simp only [List.isEmpty_iff_length_eq_zero] at hres
    omega
  · simp only [siftDown_length, List.length_set]
    omega

/-- `toSortedArray()`: heap-copy the entries (values and ids preserved),
re-establish the heap invariant on the copy with the sift-down pass, then
drain the copy.  Returns the output array together with the state of `this`
after the call: the source mutates only `copy`, never `this`. -/
def toSortedArray (q : PriorityQueue α) : List α × PriorityQueue α :=
  let copy : PriorityQueue α :=
    { heap := heapify q.comparator q.heap, comparator := q.comparator, seq := q.seq }
  (drainLoop copy, q)

/-- `setComparator(comparator)`: replace the ordering function and restore the
heap invariant with the reverse-level-order sift-down pass. -/
def setComparator (q : PriorityQueue α) (cmp : α → α → Int) : PriorityQueue α :=
  { heap := heapify cmp q.heap, comparator := cmp, seq := q.seq }

/-- `new PriorityQueue(comparator, initial)` / `PriorityQueue.from(initial,
comparator)`: every element of `initial` is enqueued in iteration order. -/
def buildQueue (cmp : α → α → Int) (vs : List α) : PriorityQueue α :=
  vs.foldl enqueue (mkQueue cmp)

end PriorityQueue

/-! ## The heap invariant -/

section HeapInvariant

variable {α : Type} [Inhabited α]

/-- The spec's heap property: for every non-root index `i`,
`order(heap[parent(i)], heap[i]) <= 0` under the active entry ordering. -/
def IsHeap (cmp : α → α → Int) (l : List (Entry α)) : Prop :=
  ∀ j, j < l.length → 0 < j →
    compareEntries cmp (getE l (getParent j)) (getE l j) ≤ 0

/-- The heap property restricted to edges whose parent index is at least
`base`; Floyd's construction pass extends this region toward the root. -/
def HeapFromIdx (cmp : α → α → Int) (l : List (Entry α)) (base : Nat) : Prop :=
  ∀ j, j < l.length → 0 < j → base ≤ getParent j →
    compareEntries cmp (getE l (getParent j)) (getE l j) ≤ 0

theorem isHeap_iff_heapFromIdx (cmp : α → α → Int) (l : List (Entry α)) :
    IsHeap cmp l ↔ HeapFromIdx cmp l 0 := by
  constructor
  · intro h j hj hj0 _
    exact h j hj hj0
  · intro h j hj hj0
    exact h j hj hj0 (Nat.zero_le _)

/-- Facts about the `smallest` choice when `siftDown` stops: every existing
child of `i` compares at least as large as the entry at `i`. -/
theorem smallestIdx_eq_spec {cmp : α → α → Int} (h : LawfulCmp cmp)
    {l : List (Entry α)} {i : Nat} (hs : smallestIdx cmp l i = i) :
    ∀ c, c < l.length → getParent c = i → 0 < c →
      compareEntries cmp (getE l i) (getE l c) ≤ 0 := by
  intro c hc hpc hc0
  have hchild : c = getLeft i ∨ c = getRight i := by
    simp only [getParent] at hpc
    simp only [getLeft, getRight]
    omega
  unfold smallestIdx at hs
  by_cases hL : getLeft i < l.length ∧
      compareEntries cmp (getE l (getLeft i)) (getE l i) < 0
  · -- the left test fired, so `s1 = left ≠ i` and the result cannot be `i`
    simp only [if_pos hL] at hs
    exfalso
    have hLi : getLeft i ≠ i := by simp only [getLeft]; omega
    have hRi : getRight i ≠ i := by simp only [getRight]; omega
    by_cases hR : getRight i < l.length ∧
        compareEntries cmp (getE l (getRight i)) (getE l (getLeft i)) < 0
    · rw [if_pos hR] at hs; exact hRi hs
    · rw [if_neg hR] at hs; exact hLi hs
  · simp only [if_neg hL] at hs
    rcases hchild with rfl | rfl
    · have : ¬ compareEntries cmp (getE l (getLeft i)) (getE l i) < 0 := by
        intro hlt; exact hL ⟨hc, hlt⟩
      have := compareEntries_le_iff h (getE l i) (getE l (getLeft i))
      omega
    · by_cases hR : getRight i < l.length ∧
          compareEntries cmp (getE l (getRight i)) (getE l i) < 0
      · rw [if_pos hR] at hs
        exfalso
        simp only [getRight] at hs
        omega
      · have : ¬ compareEntries cmp (getE l (getRight i)) (getE l i) < 0 := by
          intro hlt; exact hR ⟨hc, hlt⟩
        have := compareEntries_le_iff h (getE l i) (getE l (getRight i))
        omega

/-- Facts about the `smallest` choice when `siftDown` swaps: the chosen child
is a strict in-bounds child of `i`, compares before the entry at `i`, and
compares at or before every existing child of `i`. -/
theorem smallestIdx_ne_spec {cmp : α → α → Int} (h : LawfulCmp cmp)
    {l : List (Entry α)} {i : Nat} (hs : smallestIdx cmp l i ≠ i) :
    smallestIdx cmp l i < l.length ∧ i < smallestIdx cmp l i ∧
    getParent (smallestIdx cmp l i) = i ∧
    compareEntries cmp (getE l (smallestIdx cmp l i)) (getE l i) ≤ 0 ∧
    (∀ c, c < l.length → getParent c = i → 0 < c →
      compareEntries cmp (getE l (smallestIdx cmp l i)) (getE l c) ≤ 0) := by
  have hb := smallestIdx_ne cmp l i hs
  unfold smallestIdx at hs hb ⊢
  by_cases hL : getLeft i < l.length ∧
      compareEntries cmp (getE l (getLeft i)) (getE l i) < 0
  · simp only [if_pos hL] at hs hb ⊢
    by_cases hR : getRight i < l.length ∧
        compareEntries cmp (getE l (getRight i)) (getE l (getLeft i)) < 0
    · -- smallest = right, having beaten left, which beat i
      simp only [if_pos hR] at hs hb ⊢
      refine ⟨hR.1, by simp only [getRight]; omega, by simp only [getParent, getRight]; omega,
        ?_, ?_⟩
      · have h1 : compareEntries cmp (getE l (getRight i)) (getE l (getLeft i)) ≤ 0 := by omega
        have h2 : compareEntries cmp (getE l (getLeft i)) (getE l i) ≤ 0 := by
          have := hL.2; omega
        exact compareEntries_trans h h1 h2
      · intro c hc hpc hc0
        have hchild : c = getLeft i ∨ c = getRight i := by
          simp only [getParent] at hpc
          simp only [getLeft, getRight]
          omega
        rcases hchild with rfl | rfl
        · have := hR.2; omega
        · have := compareEntries_refl h (getE l (getRight i)); omega
    · -- smallest = left
      simp only [if_neg hR] at hs hb ⊢
      refine ⟨hL.1, by simp only [getLeft]; omega, by simp only [getParent, getLeft]; omega,
        by have := hL.2; omega, ?_⟩
      intro c hc hpc hc0
      have hchild : c = getLeft i ∨ c = getRight i := by
        simp only [getParent] at hpc
        simp only [getLeft, getRight]
        omega
      rcases hchild with rfl | rfl
      · have := compareEntries_refl h (getE l (getLeft i)); omega
      · have hnR : ¬ compareEntries cmp (getE l (getRight i)) (getE l (getLeft i)) < 0 := by
          intro hlt; exact hR ⟨hc, hlt⟩
        have := compareEntries_le_iff h (getE l (getLeft i)) (getE l (getRight i))
        omega
  · simp only [if_neg hL] at hs hb ⊢
    by_cases hR : getRight i < l.length ∧
        compareEntries cmp (getE l (getRight i)) (getE l i) < 0
    · -- smallest = right, left did not beat i
      simp only [if_pos hR] at hs hb ⊢
      refine ⟨hR.1, by simp only [getRight]; omega, by simp only [getParent, getRight]; omega,
        by have := hR.2; omega, ?_⟩
      intro c hc hpc hc0
      have hchild : c = getLeft i ∨ c = getRight i := by
        simp only [getParent] at hpc
        simp only [getLeft, getRight]
        omega
      rcases hchild with rfl | rfl
      · have hnL : ¬ compareEntries cmp (getE l (getLeft i)) (getE l i) < 0 := by
          intro hlt; exact hL ⟨hc, hlt⟩
        have h1 : compareEntries cmp (getE l (getRight i)) (getE l i) ≤ 0 := by
          have := hR.2; omega
        have h2 : compareEntries cmp (getE l i) (getE l (getLeft i)) ≤ 0 := by
          have := compareEntries_le_iff h (getE l i) (getE l (getLeft i))
          omega
        exact compareEntries_trans h h1 h2
      · have := compareEntries_refl h (getE l (getRight i)); omega
    · rw [if_neg hR] at hs
      exact absurd rfl hs

theorem getParent_lt {i : Nat} (h : 0 < i) : getParent i < i := by
  simp only [getParent]
  have := Nat.div_le_self (i - 1) 2
  omega

theorem getParent_child_bound {c x : Nat} (hc : 0 < c) (hp : getParent c = x) :
    c = getLeft x ∨ c = getRight x := by
  simp only [getParent] at hp
  simp only [getLeft, getRight]
  omega

/-- Correctness of `siftDown`, by induction along its own recursion.  `i0` is
the index the sift was started from; `i` is the current hole.  Outside the
edges touching the hole the region at or below `i0` is already ordered (`h1`),
the entry moved up into the hole's parent slot orders before the hole entry
(`h2`) and before the hole's children (`h3`).  On termination the whole region
from `i0` down is ordered. -/
theorem siftDown_restores {cmp : α → α → Int} (h : LawfulCmp cmp) (i0 : Nat)
    (l : List (Entry α)) (i : Nat) (hi0 : i0 ≤ i)
    (h1 : ∀ j, j < l.length → 0 < j → i0 ≤ getParent j → j ≠ i → getParent j ≠ i →
      compareEntries cmp (getE l (getParent j)) (getE l j) ≤ 0)
    (h2 : i0 < i → compareEntries cmp (getE l (getParent i)) (getE l i) ≤ 0)
    (h3 : ∀ c, c < l.length → getParent c = i → 0 < c → i0 < i →
      compareEntries cmp (getE l (getParent i)) (getE l c) ≤ 0) :
    HeapFromIdx cmp (siftDown cmp l i) i0 := by
  rw [siftDown]
  split
  · -- the hole stopped at `i`
    rename_i hs
    intro j hj hj0 hbase
    by_cases hpj : getParent j = i
    · rw [hpj]
      exact smallestIdx_eq_spec h hs j hj hpj hj0
    · by_cases hji : j = i
      · subst hji
        have hlt := getParent_lt hj0
        exact h2 (by omega)
      · exact h1 j hj hj0 hbase hji hpj
  · -- swap the hole with its smaller-ordered child and continue there
    rename_i hs
    obtain ⟨hsl, his, hps, hsle, hall⟩ := smallestIdx_ne_spec h hs
    have hil : i < l.length := by omega
    have hins : i ≠ smallestIdx cmp l i := by omega
    refine siftDown_restores h i0 _ _ (by omega) ?_ ?_ ?_
    · intro j hj hj0 hbase hjs hpjs
      simp only [swapE_length] at hj
      by_cases hji : j = i
      · subst hji
        have hplt := getParent_lt hj0
        rw [getE_swapE_ne _ _ _ _ (by omega) (by omega),
          getE_swapE_left _ _ _ hil hins]
        exact h3 _ hsl hps (by omega) (by omega)
      · by_cases hpji : getParent j = i
        · rw [hpji, getE_swapE_left _ _ _ hil hins,
            getE_swapE_ne _ _ _ _ hji hjs]
          exact hall j hj hpji hj0
        · rw [getE_swapE_ne _ _ _ _ hpji hpjs,
            getE_swapE_ne _ _ _ _ hji hjs]
          exact h1 j hj hj0 hbase hji hpji
    · intro _
      rw [hps, getE_swapE_left _ _ _ hil hins, getE_swapE_right _ _ _ hsl]
      exact hsle
    · intro c hc hpc hc0 _
      simp only [swapE_length] at hc
      have hcs : smallestIdx cmp l i < c := by
        rcases getParent_child_bound hc0 hpc with hrfl | hrfl <;>
          simp only [hrfl, getLeft, getRight] <;> omega
      rw [hps, getE_swapE_left _ _ _ hil hins,
        getE_swapE_ne _ _ _ _ (by omega) (by omega)]
      have := h1 c hc hc0 (by omega) (by omega) (by omega)
      rwa [hpc] at this
termination_by l.length - i
decreasing_by
  simp only [swapE_length]
  omega

/-- Correctness of `siftUp`, by induction along its own recursion.  All edges
not touching the moving entry at `i` are ordered (`h1`), and the parent of `i`
orders before the children of `i` (`h2`); then sifting up yields a heap. -/
theorem siftUp_restores {cmp : α → α → Int} (h : LawfulCmp cmp)
    (l : List (Entry α)) (i : Nat) (hil : i < l.length)
    (h1 : ∀ j, j < l.length → 0 < j → j ≠ i →
      compareEntries cmp (getE l (getParent j)) (getE l j) ≤ 0)
    (h2 : ∀ c, c < l.length → getParent c = i → 0 < c → 0 < i →
      compareEntries cmp (getE l (getParent i)) (getE l c) ≤ 0) :
    IsHeap cmp (siftUp cmp l i) := by
  rw [siftUp]
  split
  · rename_i hi
    split
    · -- the moving entry orders at or after its parent: stop
      rename_i hge
      intro j hj hj0
      by_cases hji : j = i
      · rw [hji]
        have := compareEntries_le_iff h (getE l (getParent i)) (getE l i)
        omega
      · exact h1 j hj hj0 hji
    · -- strict inversion against the parent: swap upward and continue
      rename_i hlt
      have hplt : getParent i < i := getParent_lt hi
      have hpl : getParent i < l.length := by omega
      have hpne : getParent i ≠ i := by omega
      have hpin : i ≠ getParent i := by omega
      refine siftUp_restores h _ (getParent i) (by simpa using hpl) ?_ ?_
      · intro j hj hj0 hjp
        simp only [swapE_length] at hj
        by_cases hji : j = i
        · rw [hji, getE_swapE_right _ _ _ hpl, getE_swapE_left _ _ _ hil hpin]
          omega
        · by_cases hpji : getParent j = i
          · -- `j` is a child of the old position `i`
            rw [hpji, getE_swapE_left _ _ _ hil hpin,
              getE_swapE_ne _ _ _ _ hji hjp]
            exact h2 j hj hpji hj0 hi
          · by_cases hpjp : getParent j = getParent i
            · -- `j` is the sibling of `i` under the shared parent
              rw [hpjp, getE_swapE_right _ _ _ hpl,
                getE_swapE_ne _ _ _ _ hji hjp]
              have hj1 := h1 j hj hj0 hji
              rw [hpjp] at hj1
              exact compareEntries_trans h (by omega) hj1
            · rw [getE_swapE_ne _ _ _ _ hpji hpjp,
                getE_swapE_ne _ _ _ _ hji hjp]
              exact h1 j hj hj0 hji
      · intro c hc hpc hc0 hp0
        simp only [swapE_length] at hc
        have hgpp : getParent (getParent i) < getParent i := getParent_lt hp0
        have hgpne : getParent (getParent i) ≠ i := by omega
        have hgpnp : getParent (getParent i) ≠ getParent i := by omega
        rw [getE_swapE_ne _ _ _ _ hgpne hgpnp]
        have hpp := h1 (getParent i) hpl hp0 hpne
        by_cases hci : c = i
        · rw [hci, getE_swapE_left _ _ _ hil hpin]
          exact hpp
        · have hcp : getParent i < c := by
            rcases getParent_child_bound hc0 hpc with hrfl | hrfl <;>
              simp only [hrfl, getLeft, getRight] <;> omega
          rw [getE_swapE_ne _ _ _ _ hci (by omega)]
          have hcc := h1 c hc hc0 hci
          rw [hpc] at hcc
          exact compareEntries_trans h hpp hcc
  · rename_i hi
    intro j hj hj0
    exact h1 j hj hj0 (by omega)
termination_by i
decreasing_by
  have := getParent_lt (by assumption)
  omega

/-- `enqueue` preserves the heap property. -/
theorem enqueue_isHeap {cmp : α → α → Int} (h : LawfulCmp cmp)
    {q : PriorityQueue α} (hcmp : q.comparator = cmp) (hq : IsHeap cmp q.heap)
    (v : α) : IsHeap cmp (q.enqueue v).heap := by
  show IsHeap cmp (siftUp q.comparator (q.heap ++ [(⟨v, q.seq⟩ : Entry α)])
    ((q.heap ++ [(⟨v, q.seq⟩ : Entry α)]).length - 1))
  rw [hcmp]
  have hlen : (q.heap ++ [(⟨v, q.seq⟩ : Entry α)]).length = q.heap.length + 1 := by
    simp
  rw [hlen, Nat.add_sub_cancel]
  apply siftUp_restores h _ _ (by rw [hlen]; omega)
  · intro j hj hj0 hji
    rw [hlen] at hj
    have hjm : j < q.heap.length := by omega
    have hpm : getParent j < q.heap.length := by
      have := getParent_lt hj0
      omega
    rw [getE_append_left _ _ _ hjm, getE_append_left _ _ _ hpm]
    exact hq j hjm hj0
  · intro c hc hpc hc0 _
    rw [hlen] at hc
    exfalso
    rcases getParent_child_bound hc0 hpc with hrfl | hrfl <;>
      simp only [getLeft, getRight] at hrfl <;> omega

/-- `popRoot` (the storage update of a non-empty `dequeue`) preserves the
heap property. -/
theorem popRoot_isHeap {cmp : α → α → Int} (h : LawfulCmp cmp)
    {l : List (Entry α)} (hl : IsHeap cmp l) :
    IsHeap cmp (PriorityQueue.popRoot cmp l) := by
  unfold PriorityQueue.popRoot
  split
  · rename_i hres
    intro j hj hj0
    simp only [List.isEmpty_iff_length_eq_zero] at hres
    omega
  · rename_i hres
    simp only [List.isEmpty_iff_length_eq_zero, List.length_dropLast] at hres
    rw [isHeap_iff_heapFromIdx]
    apply siftDown_restores h 0 _ 0 (by omega)
    · intro j hj hj0 _ hji _
      simp only [List.length_set, List.length_dropLast] at hj
      have hple : getParent j < j := getParent_lt hj0
      rw [getE_set_ne _ _ _ _ hji, getE_set_ne _ _ _ _ (by omega),
        getE_dropLast _ _ (by omega), getE_dropLast _ _ (by omega)]
      exact hl j (by omega) hj0
    · omega
    · intro c hc hpc hc0 h00
      omega

/-- One step of the reverse-level-order pass extends the ordered region from
`i + 1` down to `i`. -/
theorem siftDown_extends {cmp : α → α → Int} (h : LawfulCmp cmp)
    {l : List (Entry α)} {i : Nat} (hl : HeapFromIdx cmp l (i + 1)) :
    HeapFromIdx cmp (siftDown cmp l i) i := by
  apply siftDown_restores h i l i (Nat.le_refl i)
  · intro j hj hj0 hbase hji hpji
    exact hl j hj hj0 (by omega)
  · omega
  · intro c hc hpc hc0 hii
    omega

theorem heapifyFrom_isHeap {cmp : α → α → Int} (h : LawfulCmp cmp) :
    ∀ (i : Nat) (l : List (Entry α)), HeapFromIdx cmp l (i + 1) →
      HeapFromIdx cmp (heapifyFrom cmp l i) 0 := by
  intro i
  induction i with
  | zero =>
    intro l hl
    exact siftDown_extends h hl
  | succ i ih =>
    intro l hl
    exact ih _ (siftDown_extends h hl)

/-- The full sift-down pass establishes the heap property on arbitrary
storage. -/
theorem heapify_isHeap {cmp : α → α → Int} (h : LawfulCmp cmp)
    (l : List (Entry α)) : IsHeap cmp (heapify cmp l) := by
  unfold heapify
  split
  · rename_i hsmall
    intro j hj hj0
    have hpj := getParent_lt hj0
    simp only [getParent] at hpj ⊢
    omega
  · rename_i hbig
    rw [isHeap_iff_heapFromIdx]
    apply heapifyFrom_isHeap h
    intro j hj hj0 hbase
    exfalso
    simp only [getParent] at hbase
    omega

/-- In a heap the root orders at or before every stored entry. -/
theorem isHeap_root_min {cmp : α → α → Int} (h : LawfulCmp cmp)
    {l : List (Entry α)} (hl : IsHeap cmp l) :
    ∀ j, j < l.length → compareEntries cmp (getE l 0) (getE l j) ≤ 0 := by
  intro j
  induction j using Nat.strong_induction_on with
  | _ j ih =>
    intro hj
    cases Nat.eq_zero_or_pos j with
    | inl hz =>
      subst hz
      have := compareEntries_refl h (getE l 0)
      omega
    | inr hpos =>
      have hplt : getParent j < j := getParent_lt hpos
      exact compareEntries_trans h (ih (getParent j) hplt (by omega))
        (hl j hj hpos)

theorem getE_last {l : List (Entry α)} (h : l ≠ []) :
    getE l (l.length - 1) = l.getLast h := by
  have hpos : 0 < l.length := List.length_pos.mpr h
  rw [getE_eq_getElem _ _ (by omega), List.getLast_eq_getElem]

/-- The storage after a non-empty `dequeue` is a permutation of the old
storage minus its root. -/
theorem popRoot_perm (cmp : α → α → Int) (l : List (Entry α)) (hne : l ≠ []) :
    List.Perm (PriorityQueue.popRoot cmp l) l.tail := by
  unfold PriorityQueue.popRoot
  split
  · rename_i hres
    simp only [List.isEmpty_iff_length_eq_zero, List.length_dropLast] at hres
    cases l with
    | nil => exact absurd rfl hne
    | cons a t =>
      cases t with
      | nil => simp
      | cons b u => simp at hres
  · rename_i hres
    simp only [List.isEmpty_iff_length_eq_zero, List.length_dropLast] at hres
    cases l with
    | nil => simp at hne
    | cons a t =>
      have htne : t ≠ [] := by
        intro he
        subst he
        simp at hres
      have hstep : (a :: t).dropLast.set 0 (getE (a :: t) ((a :: t).length - 1))
          = (a :: t).getLast hne :: t.dropLast := by
        rw [getE_last hne]
        have hdl : (a :: t).dropLast = a :: t.dropLast := by
          cases t with
          | nil => simp at htne
          | cons b u => simp
        rw [hdl]
        rfl
      rw [hstep]
      have hperm1 : List.Perm ((a :: t).getLast hne :: t.dropLast)
          (t.dropLast ++ [(a :: t).getLast hne]) :=
        (List.perm_append_singleton _ _).symm
      have hlast : (a :: t).getLast hne = t.getLast htne := List.getLast_cons htne
      have hrec : t.dropLast ++ [(a :: t).getLast hne] = t := by
        rw [hlast]
        exact List.dropLast_append_getLast htne
      have hperm2 : List.Perm (t.dropLast ++ [(a :: t).getLast hne]) t := by
        rw [hrec]
      rw [List.tail_cons]
      exact (siftDown_perm cmp _ 0).trans (hperm1.trans hperm2)

theorem popRoot_length (cmp : α → α → Int) (l : List (Entry α)) :
    (PriorityQueue.popRoot cmp l).length = l.length - 1 := by
  cases l with
  | nil => rfl
  | cons a t =>
    rw [(popRoot_perm cmp (a :: t) (by simp)).length_eq, List.length_tail]

/-- The sequence of entries extracted by draining a heap with repeated
`dequeue`s. -/
def drainEntries (cmp : α → α → Int) (l : List (Entry α)) : List (Entry α) :=
  if h : l.length = 0 then []
  else getE l 0 :: drainEntries cmp (PriorityQueue.popRoot cmp l)
termination_by l.length
decreasing_by
  rw [popRoot_length]
  omega

/-- The value-level drain loop is the value image of the entry-level drain. -/
theorem drainLoop_eq (q : PriorityQueue α) :
    PriorityQueue.drainLoop q = (drainEntries q.comparator q.heap).map Entry.value := by
  rw [PriorityQueue.drainLoop, drainEntries]
  split
  · rfl
  · rename_i hne
    simp only [List.map_cons, List.cons.injEq, true_and]
    exact drainLoop_eq
      { heap := PriorityQueue.popRoot q.comparator q.heap,
        comparator := q.comparator, seq := q.seq }
termination_by q.heap.length
decreasing_by
  rw [popRoot_length]
  omega

theorem drainEntries_perm (cmp : α → α → Int) (l : List (Entry α)) :
    List.Perm (drainEntries cmp l) l := by
  rw [drainEntries]
  split
  · rename_i hz
    rw [List.length_eq_zero.mp hz]
  · rename_i hne
    have hlne : l ≠ [] := by intro he; rw [he] at hne; exact hne rfl
    have hrec := drainEntries_perm cmp (PriorityQueue.popRoot cmp l)
    have := (hrec.trans (popRoot_perm cmp l hlne)).cons (getE l 0)
    have hcons : getE l 0 :: l.tail = l := by
      cases l with
      | nil => exact absurd rfl hlne
      | cons a t => rfl
    rwa [hcons] at this
termination_by l.length
decreasing_by
  rw [popRoot_length]
  omega

theorem drainEntries_sorted {cmp : α → α → Int} (h : LawfulCmp cmp)
    (l : List (Entry α)) (hl : IsHeap cmp l) :
    List.Sorted (fun a b => compareEntries cmp a b ≤ 0) (drainEntries cmp l) := by
  rw [drainEntries]
  split
  · exact List.sorted_nil
  · rename_i hne
    have hlne : l ≠ [] := by intro he; rw [he] at hne; exact hne rfl
    rw [List.sorted_cons]
    constructor
    · intro b hb
      have hb1 : b ∈ PriorityQueue.popRoot cmp l :=
        (drainEntries_perm cmp _).mem_iff.mp hb
      have hb2 : b ∈ l := List.mem_of_mem_tail ((popRoot_perm cmp l hlne).mem_iff.mp hb1)
      obtain ⟨i, hi, rfl⟩ := List.getElem_of_mem hb2
      rw [← getE_eq_getElem _ _ hi]
      exact isHeap_root_min h hl i hi
    · exact drainEntries_sorted h _ (popRoot_isHeap h hl)
termination_by l.length
decreasing_by
  rw [popRoot_length]
  omega

/-- Two sorted permutations of entry lists with pairwise-distinct ids are
equal: the tie-breaking order is a strict total order on such lists, so the
sorted arrangement is unique. -/
theorem sorted_perm_eq_of_nodup_ids {cmp : α → α → Int} (h : LawfulCmp cmp) :
    ∀ (l₁ l₂ : List (Entry α)), List.Perm l₁ l₂ →
      List.Sorted (fun a b => compareEntries cmp a b ≤ 0) l₁ →
      List.Sorted (fun a b => compareEntries cmp a b ≤ 0) l₂ →
      (l₁.map Entry.id).Nodup → l₁ = l₂ := by
  intro l₁
  induction l₁ with
  | nil =>
    intro l₂ hp _ _ _
    exact (List.Perm.nil_eq hp).symm ▸ rfl
  | cons a t₁ ih =>
    intro l₂ hp hs₁ hs₂ hn₁
    cases l₂ with
    | nil => exact absurd hp.symm (by simp)
    | cons b t₂ =>
      have hab : a = b := by
        by_contra hne
        have ha2 : a ∈ b :: t₂ := hp.mem_iff.mp (List.mem_cons_self a t₁)
        have hb1 : b ∈ a :: t₁ := hp.symm.mem_iff.mp (List.mem_cons_self b t₂)
        have ha2' : a ∈ t₂ := by
          cases List.mem_cons.mp ha2 with
          | inl he => exact absurd he hne
          | inr hm => exact hm
        have hb1' : b ∈ t₁ := by
          cases List.mem_cons.mp hb1 with
          | inl he => exact absurd he.symm hne
          | inr hm => exact hm
        have hle1 : compareEntries cmp a b ≤ 0 :=
          (List.sorted_cons.mp hs₁).1 b hb1'
        have hle2 : compareEntries cmp b a ≤ 0 :=
          (List.sorted_cons.mp hs₂).1 a ha2'
        have hz : compareEntries cmp a b = 0 := by
          have h1 := compareEntries_le_iff h a b
          have h2 := compareEntries_le_iff h b a
          omega
        have hid := (compareEntries_eq_zero h hz).2
        have hn' : (a.id :: t₁.map Entry.id).Nodup := hn₁
        have hnodup := List.nodup_cons.mp hn'
        apply hnodup.1
        rw [hid]
        exact List.mem_map_of_mem Entry.id hb1'
      subst hab
      have hpt : List.Perm t₁ t₂ := hp.cons_inv
      have hn' : (a.id :: t₁.map Entry.id).Nodup := hn₁
      have := ih t₂ hpt (List.sorted_cons.mp hs₁).2 (List.sorted_cons.mp hs₂).2
        (List.nodup_cons.mp hn').2
      rw [this]

/-! ## Reachable states and the master invariant -/

/-- Well-formed insertion ids: pairwise distinct and strictly below the
current sequence counter. -/
def WfIds (q : PriorityQueue α) : Prop :=
  (q.heap.map Entry.id).Nodup ∧ ∀ e ∈ q.heap, e.id < q.seq

/-- Queue states reachable by sequences of public operations.  Per spec §3 a
comparator supplied at construction or through `setComparator` defines a
total preorder, captured by `LawfulCmp`.  Construction with an initial
iterable is the `init` state followed by `enqueue` steps, and the observer
operations (`size`, `isEmpty`, `peek`, `toArray`, `toSortedArray`) do not
change the state. -/
inductive Reachable : PriorityQueue α → Prop where
  | init (cmp : α → α → Int) (h : LawfulCmp cmp) :
      Reachable (PriorityQueue.mkQueue cmp)
  | enqueue {q : PriorityQueue α} (hq : Reachable q) (v : α) :
      Reachable (q.enqueue v)
  | dequeue {q : PriorityQueue α} (hq : Reachable q) :
      Reachable (q.dequeue).2
  | clear {q : PriorityQueue α} (hq : Reachable q) :
      Reachable q.clear
  | setComparator {q : PriorityQueue α} (hq : Reachable q)
      (cmp : α → α → Int) (h : LawfulCmp cmp) :
      Reachable (q.setComparator cmp)

/-- The internal invariant carried by every reachable state. -/
def QueueInv (q : PriorityQueue α) : Prop :=
  LawfulCmp q.comparator ∧ IsHeap q.comparator q.heap ∧ WfIds q

theorem enqueue_heap_perm (q : PriorityQueue α) (v : α) :
    List.Perm (q.enqueue v).heap (q.heap ++ [(⟨v, q.seq⟩ : Entry α)]) := by
  show List.Perm (siftUp q.comparator (q.heap ++ [(⟨v, q.seq⟩ : Entry α)])
    ((q.heap ++ [(⟨v, q.seq⟩ : Entry α)]).length - 1)) _
  exact siftUp_perm _ _ _ (by simp)

theorem dequeue_empty {q : PriorityQueue α} (h : q.heap = []) :
    q.dequeue = (none, q) := by
  unfold PriorityQueue.dequeue
  rw [if_pos]
  simp [PriorityQueue.isEmpty, h]

theorem dequeue_nonempty {q : PriorityQueue α} (h : q.heap ≠ []) :
    q.dequeue = (some (getE q.heap 0).value,
      { heap := PriorityQueue.popRoot q.comparator q.heap,
        comparator := q.comparator, seq := q.seq }) := by
  unfold PriorityQueue.dequeue
  rw [if_neg]
  simp [PriorityQueue.isEmpty, h]

/-- Every reachable state satisfies the master invariant: lawful active
comparator, the heap property, and well-formed ids. -/
theorem reachable_inv {q : PriorityQueue α} (hq : Reachable q) : QueueInv q := by
  induction hq with
  | init cmp h =>
    refine ⟨h, ?_, ?_, ?_⟩
    · intro j hj _
      simp [PriorityQueue.mkQueue] at hj
    · simp [PriorityQueue.mkQueue]
    · intro e he
      simp [PriorityQueue.mkQueue] at he
  | enqueue hq v ih =>
    rename_i q
    obtain ⟨hlaw, hheap, hnd, hlt⟩ := ih
    refine ⟨hlaw, enqueue_isHeap hlaw rfl hheap v, ?_, ?_⟩
    · have hp := (enqueue_heap_perm q v).map Entry.id
      refine hp.nodup_iff.mpr ?_
      rw [List.map_append]
      rw [List.nodup_append]
      refine ⟨hnd, by simp, ?_⟩
      intro x hx hx'
      simp at hx'
      obtain ⟨e, he, rfl⟩ := List.mem_map.mp hx
      have := hlt e he
      omega
    · intro e he
      have he' := (enqueue_heap_perm q v).mem_iff.mp he
      show e.id < q.seq + 1
      rcases List.mem_append.mp he' with hm | hm
      · have := hlt e hm
        omega
      · simp at hm
        rw [hm]
        show q.seq < q.seq + 1
        omega
  | dequeue hq ih =>
    rename_i q
    obtain ⟨hlaw, hheap, hnd, hlt⟩ := ih
    by_cases hne : q.heap = []
    · rw [dequeue_empty hne]
      exact ⟨hlaw, hheap, hnd, hlt⟩
    · rw [dequeue_nonempty hne]
      refine ⟨hlaw, popRoot_isHeap hlaw hheap, ?_, ?_⟩
      · have hp := (popRoot_perm q.comparator q.heap hne).map Entry.id
        refine hp.nodup_iff.mpr ?_
        rw [List.map_tail]
        exact hnd.sublist (List.tail_sublist _)
      · intro e he
        have he' := (popRoot_perm q.comparator q.heap hne).mem_iff.mp he
        exact hlt e (List.mem_of_mem_tail he')
  | clear hq ih =>
    rename_i q
    refine ⟨ih.1, ?_, ?_, ?_⟩
    · intro j hj _
      simp [PriorityQueue.clear] at hj
    · simp [PriorityQueue.clear, WfIds]
    · intro e he
      simp [PriorityQueue.clear] at he
  | setComparator hq cmp h ih =>
    rename_i q
    obtain ⟨hlaw, hheap, hnd, hlt⟩ := ih
    refine ⟨h, heapify_isHeap h q.heap, ?_, ?_⟩
    · have hp := (heapify_perm cmp q.heap).map Entry.id
      exact hp.nodup_iff.mpr hnd
    · intro e he
      have he' := (heapify_perm cmp q.heap).mem_iff.mp he
      exact hlt e he'

/-! ## Building a queue by successive enqueues -/

/-- The entries produced by enqueueing `vs` in order starting at sequence
id `s`. -/
def tagFrom (s : Nat) : List α → List (Entry α)
  | [] => []
  | v :: vs => ⟨v, s⟩ :: tagFrom (s + 1) vs

@[simp] theorem tagFrom_length (s : Nat) (vs : List α) :
    (tagFrom s vs).length = vs.length := by
  induction vs generalizing s with
  | nil => rfl
  | cons v vs ih => simp [tagFrom, ih]

@[simp] theorem tagFrom_map_value (s : Nat) (vs : List α) :
    (tagFrom s vs).map Entry.value = vs := by
  induction vs generalizing s with
  | nil => rfl
  | cons v vs ih => simp [tagFrom, ih]

theorem tagFrom_map_id (s : Nat) (vs : List α) :
    (tagFrom s vs).map Entry.id = List.range' s vs.length := by
  induction vs generalizing s with
  | nil => rfl
  | cons v vs ih => simp [tagFrom, List.range'_succ, ih]

theorem tagFrom_nodup_ids (s : Nat) (vs : List α) :
    ((tagFrom s vs).map Entry.id).Nodup := by
  rw [tagFrom_map_id]
  exact List.nodup_range' _ _

theorem tagFrom_mem_value {s : Nat} {vs : List α} {e : Entry α}
    (he : e ∈ tagFrom s vs) : e.value ∈ vs := by
  induction vs generalizing s with
  | nil => simp [tagFrom] at he
  | cons v vs ih =>
    simp only [tagFrom, List.mem_cons] at he
    rcases he with rfl | he
    · exact List.mem_cons_self _ _
    · exact List.mem_cons_of_mem _ (ih he)

theorem tagFrom_mem_id {s : Nat} {vs : List α} {e : Entry α}
    (he : e ∈ tagFrom s vs) : s ≤ e.id ∧ e.id < s + vs.length := by
  induction vs generalizing s with
  | nil => simp [tagFrom] at he
  | cons v vs ih =>
    simp only [tagFrom, List.mem_cons] at he
    rcases he with rfl | he
    · simp
    · have := ih he
      simp only [List.length_cons]
      omega

theorem getE_tagFrom [Inhabited α] (s : Nat) (vs : List α) (j : Nat)
    (hj : j < vs.length) : getE (tagFrom s vs) j = ⟨vs[j], s + j⟩ := by
  induction vs generalizing s j with
  | nil => simp at hj
  | cons v vs ih =>
    cases j with
    | zero => simp [tagFrom, getE_cons_zero]
    | succ j =>
      rw [tagFrom, getE_cons_succ, ih s.succ j (by simpa using hj)]
      simp
      omega

section BuildLemmas

variable {α : Type} [Inhabited α]

theorem foldl_enqueue_comparator (vs : List α) :
    ∀ q : PriorityQueue α, (vs.foldl PriorityQueue.enqueue q).comparator = q.comparator := by
  induction vs with
  | nil => intro q; rfl
  | cons v vs ih => intro q; exact ih (q.enqueue v)

theorem foldl_enqueue_seq (vs : List α) :
    ∀ q : PriorityQueue α, (vs.foldl PriorityQueue.enqueue q).seq = q.seq + vs.length := by
  induction vs with
  | nil => intro q; simp
  | cons v vs ih =>
    intro q
    have := ih (q.enqueue v)
    simp only [List.foldl_cons, List.length_cons]
    rw [this]
    show q.seq + 1 + vs.length = q.seq + (vs.length + 1)
    omega

theorem foldl_enqueue_heap_perm (vs : List α) :
    ∀ q : PriorityQueue α,
      List.Perm (vs.foldl PriorityQueue.enqueue q).heap (q.heap ++ tagFrom q.seq vs) := by
  induction vs with
  | nil => intro q; simp [tagFrom]
  | cons v vs ih =>
    intro q
    have h1 := ih (q.enqueue v)
    have h2 : List.Perm ((q.enqueue v).heap ++ tagFrom (q.enqueue v).seq vs)
        ((q.heap ++ [(⟨v, q.seq⟩ : Entry α)]) ++ tagFrom (q.seq + 1) vs) :=
      List.Perm.append (enqueue_heap_perm q v) (List.Perm.refl _)
    refine (h1.trans h2).trans ?_
    rw [List.append_assoc]
    exact List.Perm.refl _

@[simp] theorem buildQueue_comparator (cmp : α → α → Int) (vs : List α) :
    (PriorityQueue.buildQueue cmp vs).comparator = cmp :=
  foldl_enqueue_comparator vs _

@[simp] theorem buildQueue_seq (cmp : α → α → Int) (vs : List α) :
    (PriorityQueue.buildQueue cmp vs).seq = vs.length := by
  have := foldl_enqueue_seq vs (PriorityQueue.mkQueue cmp)
  simpa [PriorityQueue.mkQueue] using this

theorem buildQueue_heap_perm (cmp : α → α → Int) (vs : List α) :
    List.Perm (PriorityQueue.buildQueue cmp vs).heap (tagFrom 0 vs) := by
  have := foldl_enqueue_heap_perm vs (PriorityQueue.mkQueue cmp)
  simpa [PriorityQueue.mkQueue] using this

theorem buildQueue_reachable {cmp : α → α → Int} (h : LawfulCmp cmp) (vs : List α) :
    Reachable (PriorityQueue.buildQueue cmp vs) := by
  have hgen : ∀ (ws : List α) (q : PriorityQueue α), Reachable q →
      Reachable (ws.foldl PriorityQueue.enqueue q) := by
    intro ws
    induction ws with
    | nil => intro q hq; exact hq
    | cons w ws ih => intro q hq; exact ih (q.enqueue w) (Reachable.enqueue hq w)
  exact hgen vs _ (Reachable.init cmp h)

/-- `k` successive `dequeue` calls. -/
def dequeueN (q : PriorityQueue α) : Nat → PriorityQueue α
  | 0 => q
  | k + 1 => dequeueN (q.dequeue).2 k

theorem dequeue_heap_length {q : PriorityQueue α} (h : q.heap ≠ []) :
    (q.dequeue).2.heap.length = q.heap.length - 1 := by
  rw [dequeue_nonempty h]
  exact popRoot_length q.comparator q.heap

theorem dequeueN_size (k : Nat) :
    ∀ q : PriorityQueue α, k ≤ q.heap.length →
      (dequeueN q k).heap.length = q.heap.length - k := by
  induction k with
  | zero => intro q _; simp [dequeueN]
  | succ k ih =>
    intro q hk
    have hne : q.heap ≠ [] := by
      intro he
      rw [he] at hk
      simp at hk
    have h1 := dequeue_heap_length hne
    have := ih (q.dequeue).2 (by omega)
    simp only [dequeueN]
    omega

end BuildLemmas

/-! ## Comparator congruence: a run only observes the comparator on stored
values, so comparators agreeing on those values produce identical runs. -/

section Congruence

variable {α : Type} [Inhabited α] {cmp₁ cmp₂ : α → α → Int}

theorem compareEntries_congr_of_agree {l : List (Entry α)}
    (hag : ∀ a b : Entry α, a ∈ l → b ∈ l →
      cmp₁ a.value b.value = cmp₂ a.value b.value)
    (x y : Nat) (hx : x < l.length) (hy : y < l.length) :
    compareEntries cmp₁ (getE l x) (getE l y)
      = compareEntries cmp₂ (getE l x) (getE l y) := by
  unfold compareEntries
  rw [hag _ _ (getE_mem l x hx) (getE_mem l y hy)]

theorem smallestIdx_congr {l : List (Entry α)}
    (hag : ∀ a b : Entry α, a ∈ l → b ∈ l →
      cmp₁ a.value b.value = cmp₂ a.value b.value) (i : Nat) :
    smallestIdx cmp₁ l i = smallestIdx cmp₂ l i := by
  have hce := compareEntries_congr_of_agree hag
  simp only [smallestIdx]
  by_cases hL : getLeft i < l.length ∧
      compareEntries cmp₁ (getE l (getLeft i)) (getE l i) < 0
  · have hi : i < l.length := by
      have := hL.1
      simp only [getLeft] at this
      omega
    have hL₂ : getLeft i < l.length ∧
        compareEntries cmp₂ (getE l (getLeft i)) (getE l i) < 0 := by
      refine ⟨hL.1, ?_⟩
      rw [← hce _ _ hL.1 hi]
      exact hL.2
    rw [if_pos hL, if_pos hL₂]
    by_cases hR : getRight i < l.length ∧
        compareEntries cmp₁ (getE l (getRight i)) (getE l (getLeft i)) < 0
    · have hR₂ : getRight i < l.length ∧
          compareEntries cmp₂ (getE l (getRight i)) (getE l (getLeft i)) < 0 := by
        refine ⟨hR.1, ?_⟩
        rw [← hce _ _ hR.1 hL.1]
        exact hR.2
      rw [if_pos hR, if_pos hR₂]
    · have hR₂ : ¬(getRight i < l.length ∧
          compareEntries cmp₂ (getE l (getRight i)) (getE l (getLeft i)) < 0) := by
        intro hc
        refine hR ⟨hc.1, ?_⟩
        rw [hce _ _ hc.1 hL.1]
        exact hc.2
      rw [if_neg hR, if_neg hR₂]
  · have hL₂ : ¬(getLeft i < l.length ∧
        compareEntries cmp₂ (getE l (getLeft i)) (getE l i) < 0) := by
      intro hc
      have hi : i < l.length := by
        have := hc.1
        simp only [getLeft] at this
        omega
      refine hL ⟨hc.1, ?_⟩
      rw [hce _ _ hc.1 hi]
      exact hc.2
    rw [if_neg hL, if_neg hL₂]
    by_cases hR : getRight i < l.length ∧
        compareEntries cmp₁ (getE l (getRight i)) (getE l i) < 0
    · have hi : i < l.length := by
        have := hR.1
        simp only [getRight] at this
        omega
      have hR₂ : getRight i < l.length ∧
          compareEntries cmp₂ (getE l (getRight i)) (getE l i) < 0 := by
        refine ⟨hR.1, ?_⟩
        rw [← hce _ _ hR.1 hi]
        exact hR.2
      rw [if_pos hR, if_pos hR₂]
    · have hR₂ : ¬(getRight i < l.length ∧
          compareEntries cmp₂ (getE l (getRight i)) (getE l i) < 0) := by
        intro hc
        have hi : i < l.length := by
          have := hc.1
          simp only [getRight] at this
          omega
        refine hR ⟨hc.1, ?_⟩
        rw [hce _ _ hc.1 hi]
        exact hc.2
      rw [if_neg hR, if_neg hR₂]

theorem siftDown_congr {l : List (Entry α)}
    (hag : ∀ a b : Entry α, a ∈ l → b ∈ l →
      cmp₁ a.value b.value = cmp₂ a.value b.value) (i : Nat) :
    siftDown cmp₁ l i = siftDown cmp₂ l i := by
  conv_lhs => rw [siftDown]
  conv_rhs => rw [siftDown]
  rw [← smallestIdx_congr hag i]
  split
  · rfl
  · rename_i hs
    have hb := smallestIdx_ne cmp₁ l i hs
    have hag' : ∀ a b : Entry α, a ∈ swapE l i (smallestIdx cmp₁ l i) →
        b ∈ swapE l i (smallestIdx cmp₁ l i) →
        cmp₁ a.value b.value = cmp₂ a.value b.value := by
      intro a b ha hb'
      have hperm := swapE_perm l i (smallestIdx cmp₁ l i) (by omega) hb.2
      exact hag a b (hperm.mem_iff.mp ha) (hperm.mem_iff.mp hb')
    exact siftDown_congr hag' (smallestIdx cmp₁ l i)
termination_by l.length - i
decreasing_by
  simp only [swapE_length]
  omega

theorem popRoot_congr {l : List (Entry α)}
    (hag : ∀ a b : Entry α, a ∈ l → b ∈ l →
      cmp₁ a.value b.value = cmp₂ a.value b.value) :
    PriorityQueue.popRoot cmp₁ l = PriorityQueue.popRoot cmp₂ l := by
  unfold PriorityQueue.popRoot
  split
  · rfl
  · rename_i hres
    simp only [List.isEmpty_iff_length_eq_zero, List.length_dropLast] at hres
    have hlne : l ≠ [] := by
      intro he
      rw [he] at hres
      simp at hres
    apply siftDown_congr
    intro a b ha hb
    have hmem : ∀ c : Entry α, c ∈ l.dropLast.set 0 (getE l (l.length - 1)) → c ∈ l := by
      intro c hc
      rcases List.mem_or_eq_of_mem_set hc with hm | rfl
      · exact List.dropLast_subset l hm
      · rw [getE_last hlne]
        exact List.getLast_mem hlne
    exact hag a b (hmem a ha) (hmem b hb)

theorem drainEntries_congr {l : List (Entry α)}
    (hag : ∀ a b : Entry α, a ∈ l → b ∈ l →
      cmp₁ a.value b.value = cmp₂ a.value b.value) :
    drainEntries cmp₁ l = drainEntries cmp₂ l := by
  conv_lhs => rw [drainEntries]
  conv_rhs => rw [drainEntries]
  by_cases hz : l.length = 0
  · rw [dif_pos hz, dif_pos hz]
  · rw [dif_neg hz, dif_neg hz]
    have hlne : l ≠ [] := by
      intro he
      rw [he] at hz
      exact hz rfl
    rw [← popRoot_congr hag]
    have hag' : ∀ a b : Entry α, a ∈ PriorityQueue.popRoot cmp₁ l →
        b ∈ PriorityQueue.popRoot cmp₁ l → cmp₁ a.value b.value = cmp₂ a.value b.value := by
      intro a b ha hb
      have hperm := popRoot_perm cmp₁ l hlne
      exact hag a b (List.mem_of_mem_tail (hperm.mem_iff.mp ha))
        (List.mem_of_mem_tail (hperm.mem_iff.mp hb))
    rw [drainEntries_congr hag']
termination_by l.length
decreasing_by
  rw [popRoot_length]
  omega

end Congruence

/-! ## Runs in which every comparison returns zero -/

section ZeroRuns

variable {α : Type} [Inhabited α]

/-- The everywhere-zero comparator, the reference point for stability. -/
def czero : α → α → Int := fun _ _ => 0

theorem czero_lawful : LawfulCmp (@czero α) := by
  constructor
  · intro a b
    simp [czero]
  · intro a b c _ _
    simp [czero]

@[simp] theorem compareEntries_czero (a b : Entry α) :
    compareEntries (@czero α) a b = (a.id : Int) - (b.id : Int) := by
  simp [compareEntries, czero]

/-- When the new value compares zero with everything stored, `siftUp` stops
immediately and `enqueue` is a plain append. -/
theorem enqueue_zero_heap {vs0 : List α} {q : PriorityQueue α}
    (hz : ∀ a ∈ vs0, ∀ b ∈ vs0, q.comparator a b = 0)
    {v : α} (hv : v ∈ vs0)
    (hids : ∀ e ∈ q.heap, e.id < q.seq)
    (hvals : ∀ e ∈ q.heap, e.value ∈ vs0) :
    (q.enqueue v).heap = q.heap ++ [(⟨v, q.seq⟩ : Entry α)] := by
  show siftUp q.comparator (q.heap ++ [(⟨v, q.seq⟩ : Entry α)])
    ((q.heap ++ [(⟨v, q.seq⟩ : Entry α)]).length - 1) = _
  have hlen : (q.heap ++ [(⟨v, q.seq⟩ : Entry α)]).length = q.heap.length + 1 := by
    simp
  rw [hlen, Nat.add_sub_cancel, siftUp]
  split
  · rename_i hm
    rw [if_pos]
    have hp : getParent q.heap.length < q.heap.length := getParent_lt hm
    rw [getE_concat_self, getE_append_left _ _ _ hp]
    have hpe := getE_mem q.heap (getParent q.heap.length) hp
    have hzv : q.comparator v (getE q.heap (getParent q.heap.length)).value = 0 :=
      hz v hv _ (hvals _ hpe)
    have hid : (getE q.heap (getParent q.heap.length)).id < q.seq := hids _ hpe
    show compareEntries q.comparator ⟨v, q.seq⟩ _ ≥ 0
    unfold compareEntries
    simp only [hzv]
    simp
    omega
  · rfl

theorem foldl_enqueue_zero_heap {vs0 : List α} :
    ∀ (vs : List α) (q : PriorityQueue α),
      (∀ a ∈ vs0, ∀ b ∈ vs0, q.comparator a b = 0) →
      (∀ v ∈ vs, v ∈ vs0) →
      (∀ e ∈ q.heap, e.id < q.seq) →
      (∀ e ∈ q.heap, e.value ∈ vs0) →
      (vs.foldl PriorityQueue.enqueue q).heap = q.heap ++ tagFrom q.seq vs := by
  intro vs
  induction vs with
  | nil =>
    intro q _ _ _ _
    simp [tagFrom]
  | cons v vs ih =>
    intro q hz hsub hids hvals
    have hv : v ∈ vs0 := hsub v (List.mem_cons_self _ _)
    have hstep := enqueue_zero_heap hz hv hids hvals
    have hrec := ih (q.enqueue v) hz (fun w hw => hsub w (List.mem_cons_of_mem _ hw))
      (by
        intro e he
        rw [hstep] at he
        show e.id < q.seq + 1
        rcases List.mem_append.mp he with hm | hm
        · have := hids e hm
          omega
        · simp at hm
          rw [hm]
          show q.seq < q.seq + 1
          omega)
      (by
        intro e he
        rw [hstep] at he
        rcases List.mem_append.mp he with hm | hm
        · exact hvals e hm
        · simp at hm
          rw [hm]
          exact hv)
    show ((v :: vs).foldl PriorityQueue.enqueue q).heap = _
    rw [List.foldl_cons, hrec, hstep]
    show q.heap ++ [(⟨v, q.seq⟩ : Entry α)] ++ tagFrom (q.seq + 1) vs
      = q.heap ++ tagFrom q.seq (v :: vs)
    rw [List.append_assoc]
    rfl

theorem buildQueue_zero_heap {cmp : α → α → Int} {vs : List α}
    (hz : ∀ a ∈ vs, ∀ b ∈ vs, cmp a b = 0) :
    (PriorityQueue.buildQueue cmp vs).heap = tagFrom 0 vs := by
  have := foldl_enqueue_zero_heap vs (PriorityQueue.mkQueue cmp) hz
    (fun _ hw => hw) (by simp [PriorityQueue.mkQueue]) (by simp [PriorityQueue.mkQueue])
  simpa [PriorityQueue.mkQueue] using this

theorem tagFrom_isHeap_zero (vs : List α) : IsHeap (@czero α) (tagFrom 0 vs) := by
  intro j hj hj0
  rw [tagFrom_length] at hj
  have hp : getParent j < j := getParent_lt hj0
  rw [getE_tagFrom _ _ _ (by omega), getE_tagFrom _ _ _ hj]
  simp only [compareEntries_czero]
  omega

theorem tagFrom_sorted_zero (s : Nat) (vs : List α) :
    List.Sorted (fun a b : Entry α => compareEntries (@czero α) a b ≤ 0)
      (tagFrom s vs) := by
  induction vs generalizing s with
  | nil => exact List.sorted_nil
  | cons v vs ih =>
    rw [tagFrom, List.sorted_cons]
    refine ⟨?_, ih (s + 1)⟩
    intro b hb
    have := (tagFrom_mem_id hb).1
    simp only [compareEntries_czero]
    omega

/-- Stability: with a comparator returning zero on every pair of the enqueued
values, draining the built queue returns them in enqueue order. -/
theorem drain_build_all_equal {cmp : α → α → Int} (vs : List α)
    (hz : ∀ a ∈ vs, ∀ b ∈ vs, cmp a b = 0) :
    PriorityQueue.drainLoop (PriorityQueue.buildQueue cmp vs) = vs := by
  rw [drainLoop_eq, buildQueue_comparator, buildQueue_zero_heap hz]
  have hag : ∀ a b : Entry α, a ∈ tagFrom 0 vs → b ∈ tagFrom 0 vs →
      cmp a.value b.value = @czero α a.value b.value := fun a b ha hb =>
    hz _ (tagFrom_mem_value ha) _ (tagFrom_mem_value hb)
  rw [drainEntries_congr hag]
  have hdrain : drainEntries (@czero α) (tagFrom 0 vs) = tagFrom 0 vs :=
    sorted_perm_eq_of_nodup_ids czero_lawful _ _ (drainEntries_perm _ _)
      (drainEntries_sorted czero_lawful _ (tagFrom_isHeap_zero vs))
      (tagFrom_sorted_zero 0 vs)
      (((drainEntries_perm (@czero α) (tagFrom 0 vs)).map Entry.id).nodup_iff.mpr
        (tagFrom_nodup_ids 0 vs))
  rw [hdrain, tagFrom_map_value]

end ZeroRuns

/-! ## Fallible embedding: comparators that can throw

A JavaScript comparator can throw; a throwing comparator is `α → α → Option
Int` with `none` for a throw.  A mutating operation returns `Except σ σ`: the
`error` payload is the state at the moment the exception propagates, because
the mutations performed before the throw persist in JS. -/

/-- A JavaScript runtime value as the default comparator distinguishes them:
a number, a string, or a value of any other category.  JS numbers are
modelled as integers (no claim compares values needing fractional numbers);
locale-aware string collation is modelled by the abstract `collate`
parameter of `defaultComparator`. -/
inductive JSVal where
  | num (n : Int)
  | str (s : String)
  | other (tag : Nat)
deriving Repr, DecidableEq

instance : Inhabited JSVal := ⟨JSVal.num 0⟩

/-- `function defaultComparator(a, b)`: numbers compare by `a - b`, strings
by `a.localeCompare(b)`, and any other pairing throws
(`none`). -/
def defaultComparator (collate : String → String → Int) :
    JSVal → JSVal → Option Int
  | JSVal.num a, JSVal.num b => some (a - b)
  | JSVal.str a, JSVal.str b => some (collate a b)
  | _, _ => none

/-- The queue state of the fallible embedding. -/
structure PQF (α : Type) where
  heap : List (Entry α)
  comparator : α → α → Option Int
  seq : Nat

/-- `compareEntries` when the comparator may throw: a throw propagates, a
result is tie-broken by insertion id exactly as in the total embedding. -/
def compareEntriesF {α : Type} (cmp : α → α → Option Int) (a b : Entry α) :
    Option Int :=
  match cmp a.value b.value with
  | none => none
  | some c => some (if c ≠ 0 then c else (a.id : Int) - (b.id : Int))

/-- `siftUp` when the comparator may throw: a throw aborts the loop and the
error carries the storage as mutated so far (swaps already performed
persist). -/
def siftUpF {α : Type} [Inhabited α] (cmp : α → α → Option Int)
    (l : List (Entry α)) (i : Nat) : Except (List (Entry α)) (List (Entry α)) :=
  if 0 < i then
    match compareEntriesF cmp (getE l i) (getE l (getParent i)) with
    | none => Except.error l
    | some c =>
      if c ≥ 0 then Except.ok l
      else siftUpF cmp (swapE l i (getParent i)) (getParent i)
  else Except.ok l
termination_by i
decreasing_by
  have : (i - 1) / 2 ≤ i - 1 := Nat.div_le_self _ _
  simp only [getParent]
  omega

/-- `enqueue` when the comparator may throw: the entry is appended and the
sequence counter incremented before the sift, so both survive a throw. -/
def enqueueF {α : Type} [Inhabited α] (q : PQF α) (v : α) :
    Except (PQF α) (PQF α) :=
  match siftUpF q.comparator (q.heap ++ [(⟨v, q.seq⟩ : Entry α)])
      ((q.heap ++ [(⟨v, q.seq⟩ : Entry α)]).length - 1) with
  | Except.ok h => Except.ok { heap := h, comparator := q.comparator, seq := q.seq + 1 }
  | Except.error h => Except.error { heap := h, comparator := q.comparator, seq := q.seq + 1 }

theorem siftUpF_error_perm {α : Type} [Inhabited α]
    (cmp : α → α → Option Int) (l : List (Entry α)) (i : Nat) (hi : i < l.length)
    {l' : List (Entry α)} (herr : siftUpF cmp l i = Except.error l') :
    List.Perm l' l := by
  rw [siftUpF] at herr
  split at herr
  · rename_i hi0
    split at herr
    · cases herr
      exact List.Perm.refl _
    · rename_i c hc
      split at herr
      · cases herr
    -- fell through to the recursive call
      · have hplt : getParent i < i := getParent_lt hi0
        have hrec := siftUpF_error_perm cmp (swapE l i (getParent i)) (getParent i)
          (by simp only [swapE_length]; omega) herr
        exact hrec.trans (swapE_perm l i (getParent i) hi (by omega))
  · cases herr
termination_by i
decreasing_by
  have := getParent_lt (by assumption)
  omega

/-- Enqueue is not atomic on a comparator throw: the error state already has
the new entry appended and the counter incremented. -/
theorem enqueueF_error {α : Type} [Inhabited α] {q : PQF α} {v : α}
    {q' : PQF α} (herr : enqueueF q v = Except.error q') :
    List.Perm q'.heap (q.heap ++ [(⟨v, q.seq⟩ : Entry α)]) ∧
      q'.seq = q.seq + 1 ∧ q'.comparator = q.comparator := by
  unfold enqueueF at herr
  split at herr
  · cases herr
  · rename_i h hs
    cases herr
    refine ⟨?_, rfl, rfl⟩
    exact siftUpF_error_perm q.comparator _ _ (by simp) hs

/-! ## The claims -/

/-- A lawful sample comparator over `Int` used by concrete instantiations. -/
def intCmp : Int → Int → Int := fun a b => a - b

theorem intCmp_lawful : LawfulCmp intCmp := by
  constructor
  · intro a b
    simp only [intCmp]
    omega
  · intro a b c h1 h2
    simp only [intCmp] at h1 h2 ⊢
    omega

/-- A lawful sample comparator over `Int` ordering in the opposite
direction. -/
def negIntCmp : Int → Int → Int := fun a b => b - a

theorem negIntCmp_lawful : LawfulCmp negIntCmp := by
  constructor
  · intro a b
    simp only [negIntCmp]
    omega
  · intro a b c h1 h2
    simp only [negIntCmp] at h1 h2 ⊢
    omega

/-- C1: for every queue state reachable by any sequence of the public
operations, after each public mutating operation completes, every non-root
index `i` of the internal heap storage satisfies
`order(heap[parent(i)], heap[i]) <= 0`, where `order` compares first by the
active comparator on the values and then by insertion id ascending on a
comparator result of zero (comparators define total preorders, spec §3). -/
theorem reachable_heap_property {α : Type} [Inhabited α]
    {q : PriorityQueue α} (hq : Reachable q) :
    IsHeap q.comparator q.heap :=
  (reachable_inv hq).2.1

/-- Witness for C1 at a concrete reachable state. -/
theorem reachable_heap_property_witness :
    Reachable (((PriorityQueue.mkQueue intCmp).enqueue 5).enqueue 3) ∧
      IsHeap (((PriorityQueue.mkQueue intCmp).enqueue 5).enqueue 3).comparator
        (((PriorityQueue.mkQueue intCmp).enqueue 5).enqueue 3).heap :=
  have hr : Reachable (((PriorityQueue.mkQueue intCmp).enqueue 5).enqueue 3) :=
    Reachable.enqueue (Reachable.enqueue (Reachable.init intCmp intCmp_lawful) 5) 3
  ⟨hr, reachable_heap_property hr⟩

/-- The tie-breaking order restricted to a collection of entries:
irreflexive, asymmetric and total on distinct entries, and transitive. -/
def IdsStrictOrder {α : Type} (cmp : α → α → Int) (l : List (Entry α)) : Prop :=
  (∀ e ∈ l, ¬ compareEntries cmp e e < 0) ∧
  (∀ e₁ ∈ l, ∀ e₂ ∈ l, e₁ ≠ e₂ →
    (compareEntries cmp e₁ e₂ < 0 ↔ ¬ compareEntries cmp e₂ e₁ < 0)) ∧
  (∀ e₁ ∈ l, ∀ e₂ ∈ l, ∀ e₃ ∈ l,
    compareEntries cmp e₁ e₂ < 0 → compareEntries cmp e₂ e₃ < 0 →
    compareEntries cmp e₁ e₃ < 0)

/-- C10: in every reachable queue state the insertion ids of the stored
entries are pairwise distinct and each is strictly less than the current
sequence counter; consequently the tie-breaking order (comparator result,
then id) is a strict total order on the stored entries. -/
theorem reachable_ids_strict_order {α : Type} [Inhabited α]
    {q : PriorityQueue α} (hq : Reachable q) :
    WfIds q ∧ IdsStrictOrder q.comparator q.heap := by
  obtain ⟨hlaw, _, hnd, hlt⟩ := reachable_inv hq
  have hinj : ∀ e₁ ∈ q.heap, ∀ e₂ ∈ q.heap, e₁.id = e₂.id → e₁ = e₂ := by
    intro e₁ h₁ e₂ h₂ he
    exact List.inj_on_of_nodup_map hnd h₁ h₂ he
  have hne_zero : ∀ e₁ ∈ q.heap, ∀ e₂ ∈ q.heap, e₁ ≠ e₂ →
      compareEntries q.comparator e₁ e₂ ≠ 0 := by
    intro e₁ h₁ e₂ h₂ hne hz
    exact hne (hinj e₁ h₁ e₂ h₂ (compareEntries_eq_zero hlaw hz).2)
  refine ⟨⟨hnd, hlt⟩, ?_, ?_, ?_⟩
  · intro e _
    have := compareEntries_refl hlaw e
    omega
  · intro e₁ h₁ e₂ h₂ hne
    have h12 := hne_zero e₁ h₁ e₂ h₂ hne
    have h21 := hne_zero e₂ h₂ e₁ h₁ (Ne.symm hne)
    have hs := compareEntries_swap hlaw e₁ e₂
    have hs' := compareEntries_swap hlaw e₂ e₁
    omega
  · intro e₁ h₁ e₂ h₂ e₃ h₃ h12 h23
    have hle := compareEntries_trans hlaw (by omega : compareEntries q.comparator e₁ e₂ ≤ 0)
      (by omega : compareEntries q.comparator e₂ e₃ ≤ 0)
    rcases Decidable.lt_or_eq_of_le hle with hlt' | hz
    · exact hlt'
    · exfalso
      have he := hinj e₁ h₁ e₃ h₃ (compareEntries_eq_zero hlaw hz).2
      subst he
      have hs := compareEntries_swap hlaw e₁ e₂
      omega

/-- Witness for C10 at a concrete reachable state. -/
theorem reachable_ids_strict_order_witness :
    Reachable (((PriorityQueue.mkQueue intCmp).enqueue 5).enqueue 3) ∧
      (WfIds (((PriorityQueue.mkQueue intCmp).enqueue 5).enqueue 3) ∧
        IdsStrictOrder (((PriorityQueue.mkQueue intCmp).enqueue 5).enqueue 3).comparator
          (((PriorityQueue.mkQueue intCmp).enqueue 5).enqueue 3).heap) :=
  have hr : Reachable (((PriorityQueue.mkQueue intCmp).enqueue 5).enqueue 3) :=
    Reachable.enqueue (Reachable.enqueue (Reachable.init intCmp intCmp_lawful) 5) 3
  ⟨hr, reachable_ids_strict_order hr⟩

/-- C5: after `setComparator(c2)` the heap property holds over the existing
storage under the ordering derived from `c2` (with id tie-breaking), and the
next `dequeue()` returns a stored element minimal under that ordering among
everything stored — whether or not it was minimal under the previous
comparator. -/
theorem setComparator_reheapify_min {α : Type} [Inhabited α]
    (q : PriorityQueue α) (c2 : α → α → Int) (h2 : LawfulCmp c2)
    (hne : q.heap ≠ []) :
    IsHeap c2 (q.setComparator c2).heap ∧
    ∃ e, e ∈ q.heap ∧ ((q.setComparator c2).dequeue).1 = some e.value ∧
      ∀ x ∈ q.heap, compareEntries c2 e x ≤ 0 := by
  have hih : IsHeap c2 (heapify c2 q.heap) := heapify_isHeap h2 q.heap
  have hlen : (heapify c2 q.heap).length = q.heap.length := heapify_length c2 q.heap
  have hqpos : 0 < q.heap.length := List.length_pos.mpr hne
  have hne2 : (q.setComparator c2).heap ≠ [] := by
    show heapify c2 q.heap ≠ []
    intro he
    rw [he] at hlen
    simp at hlen
    omega
  refine ⟨hih, getE (heapify c2 q.heap) 0, ?_, ?_, ?_⟩
  · exact (heapify_perm c2 q.heap).mem_iff.mp (getE_mem _ 0 (by omega))
  · rw [dequeue_nonempty hne2]
    rfl
  · intro x hx
    have hx' : x ∈ heapify c2 q.heap := (heapify_perm c2 q.heap).mem_iff.mpr hx
    obtain ⟨j, hj, rfl⟩ := List.getElem_of_mem hx'
    rw [← getE_eq_getElem _ _ hj]
    exact isHeap_root_min h2 hih j hj

/-- Witness for C5: the old comparator ordered `5` before `3`; after
installing the reversed order the dequeued minimum is computed under the new
comparator. -/
theorem setComparator_reheapify_min_witness :
    LawfulCmp negIntCmp ∧
      (PriorityQueue.mk [⟨(5 : Int), 0⟩, ⟨3, 1⟩] intCmp 2).heap ≠ [] ∧
      (IsHeap negIntCmp
          ((PriorityQueue.mk [⟨(5 : Int), 0⟩, ⟨3, 1⟩] intCmp 2).setComparator negIntCmp).heap ∧
        ∃ e, e ∈ (PriorityQueue.mk [⟨(5 : Int), 0⟩, ⟨3, 1⟩] intCmp 2).heap ∧
          (((PriorityQueue.mk [⟨(5 : Int), 0⟩, ⟨3, 1⟩] intCmp 2).setComparator
              negIntCmp).dequeue).1 = some e.value ∧
          ∀ x ∈ (PriorityQueue.mk [⟨(5 : Int), 0⟩, ⟨3, 1⟩] intCmp 2).heap,
            compareEntries negIntCmp e x ≤ 0) :=
  ⟨negIntCmp_lawful, by simp,
    setComparator_reheapify_min _ negIntCmp negIntCmp_lawful (by simp)⟩

/-- C6: on an empty queue `dequeue()` returns the absent signal and leaves
the state untouched, `peek()` returns the absent signal, and neither changes
the queue's size or stored contents (both are total functions of the state;
no fault is raised). -/
theorem empty_dequeue_peek_absent {α : Type} [Inhabited α]
    (q : PriorityQueue α) (h : q.heap = []) :
    q.dequeue = (none, q) ∧ q.peek = none ∧
      (q.dequeue).2.size = q.size ∧ (q.dequeue).2.heap = q.heap := by
  have hd := dequeue_empty h
  refine ⟨hd, ?_, ?_, ?_⟩
  · simp [PriorityQueue.peek, h]
  · rw [hd]
  · rw [hd]

/-- Witness for C6 on the concrete empty queue. -/
theorem empty_dequeue_peek_absent_witness :
    (PriorityQueue.mkQueue intCmp).heap = [] ∧
      ((PriorityQueue.mkQueue intCmp).dequeue = (none, PriorityQueue.mkQueue intCmp) ∧
        (PriorityQueue.mkQueue intCmp).peek = none ∧
        ((PriorityQueue.mkQueue intCmp).dequeue).2.size = (PriorityQueue.mkQueue intCmp).size ∧
        ((PriorityQueue.mkQueue intCmp).dequeue).2.heap = (PriorityQueue.mkQueue intCmp).heap) :=
  ⟨rfl, empty_dequeue_peek_absent (PriorityQueue.mkQueue intCmp) rfl⟩

/-- C7: after `n` enqueues followed by `k ≤ n` dequeues on an initially empty
queue (the comparator is a total function, so no comparison fails), `size()`
equals `n - k`. -/
theorem size_after_enqueues_dequeues {α : Type} [Inhabited α]
    (cmp : α → α → Int) (vs : List α) (k : Nat) (hk : k ≤ vs.length) :
    (dequeueN (PriorityQueue.buildQueue cmp vs) k).size = vs.length - k := by
  have hbuild : (PriorityQueue.buildQueue cmp vs).heap.length = vs.length := by
    rw [(buildQueue_heap_perm cmp vs).length_eq, tagFrom_length]
  show (dequeueN (PriorityQueue.buildQueue cmp vs) k).heap.length = vs.length - k
  rw [dequeueN_size k _ (by omega), hbuild]

/-- Witness for C7: three enqueues and two dequeues leave one element. -/
theorem size_after_enqueues_dequeues_witness :
    2 ≤ ([5, 3, 7] : List Int).length ∧
      (dequeueN (PriorityQueue.buildQueue intCmp [5, 3, 7]) 2).size
        = ([5, 3, 7] : List Int).length - 2 :=
  ⟨by simp, size_after_enqueues_dequeues intCmp [5, 3, 7] 2 (by simp)⟩

/-- C8: the sequence counter starts at 0 at construction, is incremented by
exactly 1 per enqueue, is reset to 0 by `clear()`, and is left unchanged by
`dequeue` and `setComparator`; the remaining public operations (`size`,
`isEmpty`, `peek`, `toArray`) are read-only functions of the state and
`toSortedArray` returns `this` unchanged. -/
theorem seq_counter_behaviour {α : Type} [Inhabited α] :
    (∀ cmp : α → α → Int, (PriorityQueue.mkQueue cmp).seq = 0) ∧
    (∀ (q : PriorityQueue α) (v : α), (q.enqueue v).seq = q.seq + 1) ∧
    (∀ q : PriorityQueue α, q.clear.seq = 0) ∧
    (∀ q : PriorityQueue α, (q.dequeue).2.seq = q.seq) ∧
    (∀ (q : PriorityQueue α) (cmp : α → α → Int), (q.setComparator cmp).seq = q.seq) ∧
    (∀ q : PriorityQueue α, (q.toSortedArray).2.seq = q.seq) := by
  refine ⟨fun _ => rfl, fun _ _ => rfl, fun _ => rfl, ?_, fun _ _ => rfl, fun _ => rfl⟩
  intro q
  unfold PriorityQueue.dequeue
  split
  · rfl
  · rfl

/-- C2: for every comparator `c` and every finite sequence of values that all
compare equal under `c` (`c` returns zero on every pair of them), enqueueing
them all into a queue constructed with `c` and then dequeuing until empty
yields the values in their original enqueue order. -/
theorem stability_fifo_equal_values {α : Type} [Inhabited α]
    (cmp : α → α → Int) (vs : List α)
    (hz : ∀ a ∈ vs, ∀ b ∈ vs, cmp a b = 0) :
    PriorityQueue.drainLoop (PriorityQueue.buildQueue cmp vs) = vs :=
  drain_build_all_equal vs hz

/-- Witness for C2: two values under a constant-zero comparator come back in
enqueue order. -/
theorem stability_fifo_equal_values_witness :
    (∀ a ∈ ([10, 20] : List Int), ∀ b ∈ ([10, 20] : List Int),
        (fun _ _ => (0 : Int)) a b = 0) ∧
      PriorityQueue.drainLoop
          (PriorityQueue.buildQueue (fun _ _ => (0 : Int)) [10, 20])
        = [10, 20] :=
  ⟨fun _ _ _ _ => rfl,
    stability_fifo_equal_values (fun _ _ => (0 : Int)) [10, 20] (fun _ _ _ _ => rfl)⟩

/-- C3: for every (total-preorder) comparator `c` and sequence of enqueued
values, `toSortedArray()` returns exactly the sequence obtained by repeatedly
dequeuing a fresh queue seeded with the same values in the same order with
the same comparator — operations are deterministic, so the fresh queue is the
same state — and the call leaves the original queue unchanged. -/
theorem toSortedArray_matches_fresh_drain {α : Type} [Inhabited α]
    (cmp : α → α → Int) (h : LawfulCmp cmp) (vs : List α) :
    ((PriorityQueue.buildQueue cmp vs).toSortedArray).1
        = PriorityQueue.drainLoop (PriorityQueue.buildQueue cmp vs) ∧
      ((PriorityQueue.buildQueue cmp vs).toSortedArray).2
        = PriorityQueue.buildQueue cmp vs := by
  refine ⟨?_, rfl⟩
  obtain ⟨hlaw, hheap, hnd, _⟩ := reachable_inv (buildQueue_reachable h vs)
  show PriorityQueue.drainLoop
      { heap := heapify (PriorityQueue.buildQueue cmp vs).comparator
          (PriorityQueue.buildQueue cmp vs).heap,
        comparator := (PriorityQueue.buildQueue cmp vs).comparator,
        seq := (PriorityQueue.buildQueue cmp vs).seq } = _
  rw [drainLoop_eq, drainLoop_eq]
  show (drainEntries (PriorityQueue.buildQueue cmp vs).comparator
      (heapify (PriorityQueue.buildQueue cmp vs).comparator
        (PriorityQueue.buildQueue cmp vs).heap)).map Entry.value = _
  have heq : drainEntries (PriorityQueue.buildQueue cmp vs).comparator
      (heapify (PriorityQueue.buildQueue cmp vs).comparator
        (PriorityQueue.buildQueue cmp vs).heap)
      = drainEntries (PriorityQueue.buildQueue cmp vs).comparator
        (PriorityQueue.buildQueue cmp vs).heap := by
    apply sorted_perm_eq_of_nodup_ids hlaw
    · exact ((drainEntries_perm _ _).trans (heapify_perm _ _)).trans
        (drainEntries_perm _ _).symm
    · exact drainEntries_sorted hlaw _ (heapify_isHeap hlaw _)
    · exact drainEntries_sorted hlaw _ hheap
    · exact (((drainEntries_perm _ _).trans (heapify_perm _ _)).map Entry.id).nodup_iff.mpr hnd
  rw [heq]

/-- Witness for C3 at a concrete comparator and value sequence. -/
theorem toSortedArray_matches_fresh_drain_witness :
    LawfulCmp intCmp ∧
      (((PriorityQueue.buildQueue intCmp [5, 3, 5]).toSortedArray).1
          = PriorityQueue.drainLoop (PriorityQueue.buildQueue intCmp [5, 3, 5]) ∧
        ((PriorityQueue.buildQueue intCmp [5, 3, 5]).toSortedArray).2
          = PriorityQueue.buildQueue intCmp [5, 3, 5]) :=
  ⟨intCmp_lawful, toSortedArray_matches_fresh_drain intCmp intCmp_lawful [5, 3, 5]⟩

/-- The collation stand-in used by the concrete default-comparator states
(never consulted: no two strings are compared in them). -/
def czCollate : String → String → Int := fun _ _ => 0

/-- Concrete state after enqueueing the number `1` into an empty
default-comparator queue. -/
def qF : PQF JSVal :=
  { heap := [⟨JSVal.num 1, 0⟩], comparator := defaultComparator czCollate, seq := 1 }

/-- Concrete state at the moment the second enqueue's sift-up comparison
throws: both entries stored, counter already incremented. -/
def qF' : PQF JSVal :=
  { heap := [⟨JSVal.num 1, 0⟩, ⟨JSVal.other 0, 1⟩],
    comparator := defaultComparator czCollate, seq := 2 }

theorem siftUpF_zero {α : Type} [Inhabited α] (cmpF : α → α → Option Int)
    (l : List (Entry α)) : siftUpF cmpF l 0 = Except.ok l := by
  rw [siftUpF]
  simp

/-- Sift-up never fails on an enqueue into an empty queue: no comparison is
invoked. -/
theorem enqueueF_empty {α : Type} [Inhabited α] (cmpF : α → α → Option Int)
    (s : Nat) (v : α) :
    enqueueF { heap := [], comparator := cmpF, seq := s } v
      = Except.ok { heap := [⟨v, s⟩], comparator := cmpF, seq := s + 1 } := by
  simp [enqueueF, siftUpF_zero]

theorem enqueueF_first_eval :
    enqueueF { heap := [], comparator := defaultComparator czCollate, seq := 0 }
      (JSVal.num 1) = Except.ok qF :=
  enqueueF_empty (defaultComparator czCollate) 0 (JSVal.num 1)

theorem siftUpF_second :
    siftUpF (defaultComparator czCollate)
      [(⟨JSVal.num 1, 0⟩ : Entry JSVal), ⟨JSVal.other 0, 1⟩] 1
      = Except.error [⟨JSVal.num 1, 0⟩, ⟨JSVal.other 0, 1⟩] := by
  rw [siftUpF]
  simp [compareEntriesF, defaultComparator, getE, getParent, czCollate]

theorem enqueueF_second_eval :
    enqueueF qF (JSVal.other 0) = Except.error qF' := by
  simp [enqueueF, qF, qF', siftUpF_second]

/-- C4 counterexample: the claim asserts both enqueues succeed and the
ordering error is raised only during the two subsequent dequeues.  On the
code, `enqueue` itself compares during sift-up: enqueueing the number `1`
succeeds, but enqueueing a non-numeric, non-text value into the resulting
one-element queue throws the ordering error during that second enqueue. -/
theorem default_comparator_error_at_second_enqueue :
    enqueueF { heap := [], comparator := defaultComparator czCollate, seq := 0 }
        (JSVal.num 1) = Except.ok qF ∧
      enqueueF qF (JSVal.other 0) = Except.error qF' :=
  ⟨enqueueF_first_eval, enqueueF_second_eval⟩

/-- C4 (amended): the "unsupported type for default ordering" error is raised
only when a comparison is actually invoked — an enqueue into an empty queue
performs no comparison and always succeeds, for any value — but enqueue does
invoke comparisons during its sift-up: enqueueing one numeric value and then
one non-numeric, non-text value, the first enqueue succeeds and the ordering
error is raised at the comparison performed by the second enqueue's sift-up,
before any dequeue happens. -/
theorem default_comparator_lazy_failure :
    (∀ (α : Type) (inst : Inhabited α) (cmpF : α → α → Option Int) (s : Nat) (v : α),
        enqueueF { heap := [], comparator := cmpF, seq := s } v
          = Except.ok { heap := [⟨v, s⟩], comparator := cmpF, seq := s + 1 }) ∧
      enqueueF { heap := [], comparator := defaultComparator czCollate, seq := 0 }
          (JSVal.num 1) = Except.ok qF ∧
      enqueueF qF (JSVal.other 0) = Except.error qF' := by
  refine ⟨?_, enqueueF_first_eval, enqueueF_second_eval⟩
  intro α inst cmpF s v
  exact @enqueueF_empty α inst cmpF s v

/-- C9: enqueue is not atomic on comparison failure — when the active
comparator throws during the sift-up phase of `enqueue(value)`, the new entry
has already been appended to the heap storage and the sequence counter has
already been incremented, so in the state observed after the raised error the
size is one greater than before and the new value (with its fresh id) remains
stored. -/
theorem enqueue_not_atomic_on_throw {α : Type} [Inhabited α]
    {q q' : PQF α} {v : α} (herr : enqueueF q v = Except.error q') :
    q'.heap.length = q.heap.length + 1 ∧ q'.seq = q.seq + 1 ∧
      (⟨v, q.seq⟩ : Entry α) ∈ q'.heap := by
  obtain ⟨hperm, hseq, _⟩ := enqueueF_error herr
  refine ⟨?_, hseq, ?_⟩
  · rw [hperm.length_eq]
    simp
  · exact hperm.mem_iff.mpr (by simp)

/-- Witness for C9 at the concrete failing second enqueue. -/
theorem enqueue_not_atomic_on_throw_witness :
    enqueueF qF (JSVal.other 0) = Except.error qF' ∧
      (qF'.heap.length = qF.heap.length + 1 ∧ qF'.seq = qF.seq + 1 ∧
        (⟨JSVal.other 0, qF.seq⟩ : Entry JSVal) ∈ qF'.heap) :=
  ⟨enqueueF_second_eval, enqueue_not_atomic_on_throw enqueueF_second_eval⟩
